import Mathlib

/-!
Verification of the reconciliation core of `scripts/unifi_DHCP_Sync.py`
(sjultra/unifi-monitor).

The development shallowly embeds the pure data flow of
`sync_reservations_from_json` and the client helpers it calls
(`normalize_mac_address`, `_validate_mac_address`, `_validate_ip_address`,
`create_dhcp_reservation`, `_update_user_fixed_ip`, `_remove_user_fixed_ip`,
`delete_dhcp_reservation`, `_find_user_by_mac`).

Modelling conventions:
* The UniFi user table is a `List UserRec`; `get_dhcp_reservations` is the
  `use_fixedip` filter applied by the script's primary endpoint.
* Python `dict` comprehensions become association lists built by
  insertion-order-preserving, last-value-wins insertion (`dictOf`).
* The iteration order of the Python *set* `macs_to_remove` is unspecified
  (hash dependent), so the run takes the order as a parameter
  (`removeOrder`), constrained to be a permutation of the canonically
  ordered key difference where a claim needs it.
* HTTP mutation outcomes are oracles (`Nat → Bool`, per action index);
  a failed call leaves the table unchanged.  The State Repository's
  behaviour on a successful call (POST inserts a record, PUT merges the
  supplied fields into the record, absent fields unchanged) is modelled
  from the spec's State Repository contract.
* Python string `lower` is modelled for ASCII, which covers hardware
  addresses and the literal gate answers.
-/

namespace UnifiSync

/-- ASCII lowercase of one character (`str.lower` restricted to ASCII). -/
def pyLowerChar (c : Char) : Char :=
  if 65 ≤ c.toNat ∧ c.toNat ≤ 90 then Char.ofNat (c.toNat + 32) else c

/-- ASCII lowercase of a string. -/
def pyLower (s : String) : String :=
  String.mk (s.data.map pyLowerChar)

/-- `normalize_mac_address`: lowercase and strip `:` and `-` separators. -/
def normalize_mac_address (mac : String) : String :=
  String.mk ((mac.data.map pyLowerChar).filter (fun c => c ≠ ':' ∧ c ≠ '-'))

/-- One hexadecimal digit, as in the character class `[0-9A-Fa-f]`
(codepoints 48–57, 97–102, 65–70). -/
def isHexDigitChar (c : Char) : Bool :=
  (48 ≤ c.toNat && c.toNat ≤ 57) || (97 ≤ c.toNat && c.toNat ≤ 102) ||
    (65 ≤ c.toNat && c.toNat ≤ 70)

/-- Consume `[0-9A-Fa-f]{2}` from the front of the character list. -/
def chompHexPair : List Char → Option (List Char)
  | c1 :: c2 :: rest => if isHexDigitChar c1 && isHexDigitChar c2 then some rest else none
  | _ => none

/-- Consume the optional separator `[:-]?` (greedy, which is deterministic here). -/
def chompSep : List Char → List Char
  | c :: rest => if c = ':' ∨ c = '-' then rest else c :: rest
  | [] => []

/-- Consume `([0-9A-Fa-f]{2}[:-]?){n}`. -/
def chompGroups : Nat → List Char → Option (List Char)
  | 0, cs => some cs
  | n + 1, cs =>
    match chompHexPair cs with
    | some rest => chompGroups n (chompSep rest)
    | none => none

/-- Python `$`: end of input, or just before one trailing newline. -/
def atLineEnd : List Char → Bool
  | [] => true
  | c :: rest => c = '\n' && rest = []

/-- `_validate_mac_address`: `re.match` of the anchored pattern
`([0-9A-Fa-f]{2}[:-]?){5}[0-9A-Fa-f]{2}$`. -/
def _validate_mac_address (mac : String) : Bool :=
  match chompGroups 5 mac.data with
  | some rest =>
    match chompHexPair rest with
    | some rest2 => atLineEnd rest2
    | none => false
  | none => false

/-- One ASCII decimal digit (codepoints 48–57). -/
def isAsciiDigit (c : Char) : Bool :=
  48 ≤ c.toNat && c.toNat ≤ 57

/-- Numeric value of a digit string. -/
def octetToNat (cs : List Char) : Nat :=
  cs.foldl (fun n c => n * 10 + (c.toNat - 48)) 0

/-- One dotted-quad component accepted by `ipaddress.IPv4Address`:
1–3 ASCII digits, no leading zero (unless the single digit 0), value ≤ 255. -/
def validOctet (cs : List Char) : Bool :=
  decide (0 < cs.length) && decide (cs.length ≤ 3) && cs.all isAsciiDigit &&
    (match cs with
     | c :: _ :: _ => c ≠ '0'
     | _ => true) &&
    decide (octetToNat cs ≤ 255)

/-- Split a character list on `.` (like `str.split`, keeping empty pieces). -/
def splitOnDot : List Char → List (List Char)
  | [] => [[]]
  | c :: cs =>
    if c = '.' then [] :: splitOnDot cs
    else
      match splitOnDot cs with
      | h :: t => (c :: h) :: t
      | [] => [[c]]

/-- `_validate_ip_address`: `ipaddress.IPv4Address` accepts the string. -/
def _validate_ip_address (ip : String) : Bool :=
  let parts := splitOnDot ip.data
  (parts.length == 4) && parts.all validOctet

/-- One record of the desired-state JSON file.  `mac_address`/`reserved_ip`
use `""` for a missing required field (both are only truthiness-tested,
validated, and read back verbatim); the optional `name`/`hostname` keep the
missing (`none`) / present distinction that `dict.get` exposes. -/
structure DesiredRes where
  mac_address : String
  reserved_ip : String
  name : Option String
  hostname : Option String
deriving DecidableEq, Repr

/-- One row of the controller's user table (`rest/user`).  `id` is the opaque
`_id` handle, `fixed_ip`/`name`/`hostname` are `dict.get` fields. -/
structure UserRec where
  id : Nat
  mac : String
  fixed_ip : Option String
  use_fixedip : Bool
  name : Option String
  hostname : Option String
deriving DecidableEq, Repr

/-- Normalized identity of a user record. -/
def keyOf (u : UserRec) : String :=
  normalize_mac_address u.mac

/-- Normalized identity of a desired record. -/
def dKey (d : DesiredRes) : String :=
  normalize_mac_address d.mac_address

/-- Python `dict` assignment `d[k] = v`: replace in place, else append. -/
def dictInsert : List (String × α) → String → α → List (String × α)
  | [], k, v => [(k, v)]
  | (k', v') :: rest, k, v =>
    if k' = k then (k', v) :: rest else (k', v') :: dictInsert rest k v

/-- Python `dict` built from a sequence of key/value pairs (comprehension
semantics: first-insertion position, last value wins). -/
def dictOf (l : List (String × α)) : List (String × α) :=
  l.foldl (fun d p => dictInsert d p.1 p.2) []

/-- Validation pass of `sync_reservations_from_json`: required fields present
and both format checks hold. -/
def validDesired (r : DesiredRes) : Bool :=
  (r.mac_address != "") && (r.reserved_ip != "") &&
    _validate_mac_address r.mac_address && _validate_ip_address r.reserved_ip

/-- The `valid_reservations` list: entries surviving validation, in order. -/
def valid_reservations (ds : List DesiredRes) : List DesiredRes :=
  ds.filter validDesired

/-- `get_dhcp_reservations`: users with `use_fixedip` set. -/
def get_dhcp_reservations (st : List UserRec) : List UserRec :=
  st.filter (fun u => u.use_fixedip)

/-- `existing_by_mac`: normalized-MAC dict over observed entries with a
truthy `mac`. -/
def existing_by_mac (obs : List UserRec) : List (String × UserRec) :=
  dictOf ((obs.filter (fun r => r.mac != "")).map (fun r => (keyOf r, r)))

/-- `desired_by_mac`: normalized-MAC dict over the valid desired entries. -/
def desired_by_mac (vs : List DesiredRes) : List (String × DesiredRes) :=
  dictOf (vs.map (fun r => (dKey r, r)))

/-- The key set `set(existing_by_mac) - set(desired_by_mac)` listed in the
dict order of `existing_by_mac` (the set's real iteration order is
unspecified; runs take it as a permutation of this list). -/
def macs_to_remove_canon (ex : List (String × UserRec)) (de : List (String × DesiredRes)) :
    List String :=
  (ex.map Prod.fst).filter (fun k => !((de.map Prod.fst).contains k))

/-- `reservations_to_remove`: dict lookups along the given set-iteration
order. -/
def reservations_to_remove (ex : List (String × UserRec)) (removeOrder : List String) :
    List UserRec :=
  removeOrder.filterMap (fun k => List.lookup k ex)

/-- The update test of the classification loop: any of reserved IP, name, or
hostname differs between the observed and the desired record. -/
def needsUpdate (ex : UserRec) (d : DesiredRes) : Bool :=
  (ex.fixed_ip != some d.reserved_ip) || (ex.name != d.name) || (ex.hostname != d.hostname)

/-- `reservations_to_create`: desired keys with no observed entry, in dict
order. -/
def reservations_to_create (de : List (String × DesiredRes)) (ex : List (String × UserRec)) :
    List DesiredRes :=
  (de.filter (fun p => (List.lookup p.1 ex).isNone)).map Prod.snd

/-- `reservations_to_update`: desired keys whose observed entry differs, in
dict order. -/
def reservations_to_update (de : List (String × DesiredRes)) (ex : List (String × UserRec)) :
    List DesiredRes :=
  de.filterMap (fun p =>
    match List.lookup p.1 ex with
    | some e => if needsUpdate e p.2 then some p.2 else none
    | none => none)

/-- Python truthiness for an optional string (`if name:`): a non-empty
string passes, `None` and `""` do not. -/
def truthyOpt : Option String → Option String
  | some s => if s = "" then none else some s
  | none => none

/-- The partial JSON body built by `_update_user_fixed_ip`: always
`fixed_ip` and `use_fixedip`, plus `name`/`hostname` only when truthy. -/
structure UpdatePayload where
  fixed_ip : Option String
  use_fixedip : Option Bool
  name : Option String
  hostname : Option String
deriving DecidableEq, Repr

/-- `_update_user_fixed_ip`'s `update_data` dictionary. -/
def update_payload (ip : String) (name hostname : Option String) : UpdatePayload :=
  { fixed_ip := some ip
    use_fixedip := some true
    name := truthyOpt name
    hostname := truthyOpt hostname }

/-- Modelled from the spec: the State Repository's `update(identifier,
fields)` merges the supplied fields into the stored record; fields absent
from the request body are left unchanged. -/
def applyPayload (u : UserRec) (p : UpdatePayload) : UserRec :=
  { u with
    fixed_ip := match p.fixed_ip with | some v => some v | none => u.fixed_ip
    use_fixedip := p.use_fixedip.getD u.use_fixedip
    name := match p.name with | some v => some v | none => u.name
    hostname := match p.hostname with | some v => some v | none => u.hostname }

/-- `_find_user_by_mac`: first user whose normalized MAC matches. -/
def _find_user_by_mac (st : List UserRec) (mac : String) : Option UserRec :=
  st.find? (fun u => normalize_mac_address u.mac == normalize_mac_address mac)

/-- Successful `PUT rest/user/{id}` with `_update_user_fixed_ip`'s body. -/
def _update_user_fixed_ip_state (st : List UserRec) (uid : Nat) (ip : String)
    (name hostname : Option String) : List UserRec :=
  st.map (fun u => if u.id = uid then applyPayload u (update_payload ip name hostname) else u)

/-- Successful `PUT rest/user/{id}` with `_remove_user_fixed_ip`'s body
`use_fixedip = False`. -/
def _remove_user_fixed_ip_state (st : List UserRec) (uid : Nat) : List UserRec :=
  st.map (fun u => if u.id = uid then { u with use_fixedip := false } else u)

/-- `delete_dhcp_reservation`: find the user by MAC, then clear the fixed
IP; `ok` is the HTTP outcome of the PUT.  Returns (success, new table). -/
def delete_dhcp_reservation_state (st : List UserRec) (mac : String) (ok : Bool) :
    Bool × List UserRec :=
  match _find_user_by_mac st mac with
  | none => (false, st)
  | some u => if ok then (true, _remove_user_fixed_ip_state st u.id) else (false, st)

/-- A fresh opaque `_id` assigned by the controller on POST. -/
def freshId (st : List UserRec) : Nat :=
  (st.map (fun u => u.id)).foldr max 0 + 1

/-- Strip `:` characters (`mac_address.replace(':', '')`). -/
def stripColons (s : String) : String :=
  String.mk (s.data.filter (fun c => c ≠ ':'))

/-- The `user_data` record POSTed by `create_dhcp_reservation` when no user
with the MAC exists, with the controller-assigned id. -/
def newUser (st : List UserRec) (mac ip : String) (name hostname : Option String) : UserRec :=
  { id := freshId st
    mac := pyLower mac
    fixed_ip := some ip
    use_fixedip := true
    name := some ((truthyOpt name).getD ("Device-" ++ mac))
    hostname := some ((truthyOpt hostname).getD ((truthyOpt name).getD ("device-" ++ stripColons mac))) }

/-- `create_dhcp_reservation`: validate, then update the existing user with
the MAC if one exists, else POST a new user; `ok` is the HTTP outcome of
the mutating call.  Returns (success, new table). -/
def create_dhcp_reservation_state (st : List UserRec) (mac ip : String)
    (name hostname : Option String) (ok : Bool) : Bool × List UserRec :=
  if !_validate_mac_address mac then (false, st)
  else if !_validate_ip_address ip then (false, st)
  else
    match _find_user_by_mac st mac with
    | some u => if ok then (true, _update_user_fixed_ip_state st u.id ip name hostname) else (false, st)
    | none => if ok then (true, st ++ [newUser st mac ip name hostname]) else (false, st)

/-- One attempted mutation of the apply phase, tagged by phase. -/
inductive Action where
  | createA (d : DesiredRes)
  | updateA (d : DesiredRes)
  | removeA (r : UserRec)
deriving DecidableEq, Repr

/-- Whether an attempt belongs to the remove phase. -/
def Action.isRemoveA : Action → Bool
  | .removeA _ => true
  | _ => false

/-- Result of one apply-phase loop: final table, success tally, attempts. -/
structure PhaseOut where
  state : List UserRec
  okCount : Nat
  trace : List Action
deriving Repr

/-- The removal loop: every entry is attempted, failures only affect the
tally (`removed_count`). -/
def removePhase (ok : Nat → Bool) : List UserRec → List UserRec → Nat → PhaseOut
  | st, [], _ => ⟨st, 0, []⟩
  | st, r :: rest, i =>
    let step := delete_dhcp_reservation_state st r.mac (ok i)
    let out := removePhase ok step.2 rest (i + 1)
    ⟨out.state, (if step.1 then 1 else 0) + out.okCount, Action.removeA r :: out.trace⟩

/-- The create and update loops (both call `create_dhcp_reservation`):
every entry is attempted, failures only affect the success tally. -/
def upsertPhase (tag : DesiredRes → Action) (ok : Nat → Bool) :
    List UserRec → List DesiredRes → Nat → PhaseOut
  | st, [], _ => ⟨st, 0, []⟩
  | st, d :: rest, i =>
    let step := create_dhcp_reservation_state st d.mac_address d.reserved_ip d.name d.hostname (ok i)
    let out := upsertPhase tag ok step.2 rest (i + 1)
    ⟨out.state, (if step.1 then 1 else 0) + out.okCount, tag d :: out.trace⟩

/-- Python whitespace for `str.strip`. -/
def isPySpace (c : Char) : Bool :=
  c = ' ' || c = '\t' || c = '\n' || c = '\r' || c = '\x0b' || c = '\x0c'

/-- `input().lower().strip()` compared against the accepted answers: the
gate declines unless the stripped lowercase answer is `yes` or `y`. -/
def gateDeclines (resp : String) : Bool :=
  let r := String.mk (((resp.data.map pyLowerChar).dropWhile isPySpace).reverse.dropWhile isPySpace |>.reverse)
  !(r == "yes" || r == "y")

/-- Outcome of one `sync_reservations_from_json` run: return value, final
user table, attempted mutations, whether the confirmation prompt ran, and
the per-phase tallies of the summary. -/
structure SyncOut where
  retval : Bool
  state : List UserRec
  trace : List Action
  gateConsulted : Bool
  removedOk : Nat
  removedTotal : Nat
  createdOk : Nat
  createdTotal : Nat
  updatedOk : Nat
  updatedTotal : Nat
deriving Repr

/-- The apply section of the sync: removals, then creates, then updates,
with the final all-successful check of the summary. -/
def applyPhases (st : List UserRec) (toRemove : List UserRec) (toCreate toUpdate : List DesiredRes)
    (okR okC okU : Nat → Bool) (gateC : Bool) : SyncOut :=
  let rem := removePhase okR st toRemove 0
  let cre := upsertPhase Action.createA okC rem.state toCreate 0
  let upd := upsertPhase Action.updateA okU cre.state toUpdate 0
  ⟨(rem.okCount == toRemove.length) && (cre.okCount == toCreate.length) &&
      (upd.okCount == toUpdate.length),
    upd.state, rem.trace ++ cre.trace ++ upd.trace, gateC,
    rem.okCount, toRemove.length, cre.okCount, toCreate.length, upd.okCount, toUpdate.length⟩

/-- `sync_reservations_from_json`, from the point where the desired list has
been parsed: validate, abort on an empty valid list, fetch and classify,
stop on dry run, consult the gate when removals are planned and
confirmation was not waived, then apply the three phases. -/
def sync_reservations_from_json (st : List UserRec) (ds : List DesiredRes)
    (dry_run confirm_destructive : Bool) (gate_response : String)
    (removeOrder : List String) (okR okC okU : Nat → Bool) : SyncOut :=
  let vs := valid_reservations ds
  if vs.isEmpty then ⟨false, st, [], false, 0, 0, 0, 0, 0, 0⟩
  else
    let obs := get_dhcp_reservations st
    let ex := existing_by_mac obs
    let de := desired_by_mac vs
    let toRemove := reservations_to_remove ex removeOrder
    let toCreate := reservations_to_create de ex
    let toUpdate := reservations_to_update de ex
    if dry_run then ⟨true, st, [], false, 0, 0, 0, 0, 0, 0⟩
    else if !toRemove.isEmpty && confirm_destructive then
      if gateDeclines gate_response then ⟨false, st, [], true, 0, 0, 0, 0, 0, 0⟩
      else applyPhases st toRemove toCreate toUpdate okR okC okU true
    else applyPhases st toRemove toCreate toUpdate okR okC okU false

/-- The record transformation of a successful `_remove_user_fixed_ip`. -/
def flipOff (w : UserRec) : UserRec :=
  { w with use_fixedip := false }

/-- A user record that realizes a desired entry exactly, as the
classification loop compares them. -/
def matchesDesired (u : UserRec) (d : DesiredRes) : Prop :=
  u.fixed_ip = some d.reserved_ip ∧ u.use_fixedip = true ∧ u.name = d.name ∧
    u.hostname = d.hostname

/-- A present, non-empty optional string (Python truthiness). -/
def truthyStr (o : Option String) : Prop :=
  ∃ s, o = some s ∧ s ≠ ""

/-- The observed dict of a user table. -/
def exOf (st : List UserRec) : List (String × UserRec) :=
  existing_by_mac (get_dhcp_reservations st)

/-- The desired dict of a parsed desired list. -/
def deOf (ds : List DesiredRes) : List (String × DesiredRes) :=
  desired_by_mac (valid_reservations ds)

/-! ### Concrete inputs used by witnesses and counterexamples -/

/-- Oracle under which every HTTP mutation succeeds. -/
def allTrue : Nat → Bool := fun _ => true

/-- A desired entry whose MAC collides (after normalization) with `dupB`. -/
def dupA : DesiredRes := ⟨"AA:BB:CC:DD:EE:FF", "10.0.0.1", some "a", some "a"⟩

/-- A desired entry whose MAC collides (after normalization) with `dupA`. -/
def dupB : DesiredRes := ⟨"aa-bb-cc-dd-ee-ff", "10.0.0.2", some "b", some "b"⟩

/-- An observed reservation record. -/
def obsR1 : UserRec := ⟨1, "11:22:33:44:55:66", some "10.0.0.9", true, some "x", some "y"⟩

/-- A second observed reservation record with a different identity. -/
def obsR2 : UserRec := ⟨2, "22:33:44:55:66:77", some "10.0.0.8", true, some "z", some "w"⟩

/-- A valid desired entry with non-empty name and hostname. -/
def desT : DesiredRes := ⟨"aa:bb:cc:dd:ee:ff", "10.0.0.5", some "tv", some "tv"⟩

/-- A valid desired entry that omits the optional name and hostname. -/
def desN : DesiredRes := ⟨"aa:bb:cc:dd:ee:ff", "10.0.0.5", none, none⟩

/-- A second valid desired entry. -/
def desB : DesiredRes := ⟨"bb:bb:cc:dd:ee:ff", "10.0.0.6", some "b", some "b"⟩

/-- A third valid desired entry. -/
def desC : DesiredRes := ⟨"cc:bb:cc:dd:ee:ff", "10.0.0.7", some "c", some "c"⟩

/-- An observed record with the same identity as `desN` but a display
name. -/
def obsN1 : UserRec := ⟨1, "aa:bb:cc:dd:ee:ff", some "10.0.0.5", true, some "x", none⟩

/-- The user table after the three phases of an apply-capable run under the
all-success oracle (the `state` of `applyPhases`). -/
def finalState (st : List UserRec) (ds : List DesiredRes) (removeOrder : List String) :
    List UserRec :=
  (upsertPhase Action.updateA allTrue
    (upsertPhase Action.createA allTrue
      (removePhase allTrue st (reservations_to_remove (exOf st) removeOrder) 0).state
      (reservations_to_create (deOf ds) (exOf st)) 0).state
    (reservations_to_update (deOf ds) (exOf st)) 0).state

/-! ### Association-list lemmas for the Python `dict` embedding -/

theorem lookup_cons (k : String) (p : String × α) (t : List (String × α)) :
    List.lookup k (p :: t) = if k = p.1 then some p.2 else List.lookup k t := by
  rw [List.lookup]
  by_cases h : k = p.1
  · simp [h]
  · have hb : (k == p.1) = false := by
      simp [h]
    simp [h, hb]

theorem lookup_mem {l : List (String × α)} {k : String} {v : α}
    (h : List.lookup k l = some v) : (k, v) ∈ l := by
  induction l with
  | nil => simp [List.lookup] at h
  | cons p t ih =>
    rw [lookup_cons] at h
    by_cases hk : k = p.1
    · rw [if_pos hk] at h
      have hv := Option.some.inj h
      subst hk
      subst hv
      simp
    · rw [if_neg hk] at h
      exact List.mem_cons_of_mem _ (ih h)

theorem lookup_eq_none_iff {l : List (String × α)} {k : String} :
    List.lookup k l = none ↔ k ∉ l.map Prod.fst := by
  induction l with
  | nil => simp [List.lookup]
  | cons p t ih =>
    rw [lookup_cons]
    by_cases hk : k = p.1
    · simp [hk]
    · simp [hk, ih, Ne.symm hk]

theorem lookup_of_mem_nodup {l : List (String × α)}
    (hnd : (l.map Prod.fst).Nodup) {k : String} {v : α} (h : (k, v) ∈ l) :
    List.lookup k l = some v := by
  induction l with
  | nil => simp at h
  | cons p t ih =>
    rw [List.map_cons, List.nodup_cons] at hnd
    rcases List.mem_cons.mp h with h1 | h1
    · rw [← h1, lookup_cons]
      simp
    · have hne : k ≠ p.1 := by
        intro he
        exact hnd.1 (he ▸ (List.mem_map.mpr ⟨(k, v), h1, rfl⟩))
      rw [lookup_cons, if_neg hne]
      exact ih hnd.2 h1

theorem mem_dictInsert {l : List (String × α)} {k : String} {v : α} {p : String × α}
    (h : p ∈ dictInsert l k v) : p = (k, v) ∨ p ∈ l := by
  induction l with
  | nil => simpa [dictInsert] using h
  | cons q t ih =>
    rw [dictInsert] at h
    by_cases hk : q.1 = k
    · simp [hk] at h
      rcases h with h1 | h1
      · left
        rw [h1, ← hk]
      · right
        exact List.mem_cons_of_mem _ h1
    · simp [hk] at h
      rcases h with h1 | h1
      · right
        simp [h1]
      · rcases ih h1 with h2 | h2
        · exact Or.inl h2
        · exact Or.inr (List.mem_cons_of_mem _ h2)

theorem keys_dictInsert (l : List (String × α)) (k : String) (v : α) :
    (dictInsert l k v).map Prod.fst =
      if k ∈ l.map Prod.fst then l.map Prod.fst else l.map Prod.fst ++ [k] := by
  induction l with
  | nil => simp [dictInsert]
  | cons q t ih =>
    rw [dictInsert]
    by_cases hk : q.1 = k
    · simp [hk]
    · simp only [List.map_cons]
      rw [if_neg hk]
      simp only [List.map_cons, ih]
      by_cases hm : k ∈ t.map Prod.fst
      · simp [hm, Ne.symm hk]
      · simp [hm, Ne.symm hk]

theorem nodup_keys_dictInsert {l : List (String × α)} (k : String) (v : α)
    (h : (l.map Prod.fst).Nodup) : ((dictInsert l k v).map Prod.fst).Nodup := by
  rw [keys_dictInsert]
  by_cases hm : k ∈ l.map Prod.fst
  · simpa [hm] using h
  · rw [if_neg hm]
    refine List.Nodup.append h (List.nodup_singleton k) ?_
    intro a ha hb
    simp at hb
    exact hm (hb ▸ ha)

theorem lookup_dictInsert (l : List (String × α)) (k : String) (v : α) (k' : String) :
    List.lookup k' (dictInsert l k v) = if k' = k then some v else List.lookup k' l := by
  induction l with
  | nil =>
    rw [dictInsert, lookup_cons]
  | cons q t ih =>
    rw [dictInsert]
    by_cases hq : q.1 = k
    · rw [if_pos hq, lookup_cons, lookup_cons]
      by_cases hk : k' = k
      · simp [hk, hq]
      · have hne : k' ≠ q.1 := fun he => hk (he.trans hq)
        simp [hk, hne]
    · rw [if_neg hq, lookup_cons, lookup_cons, ih]
      by_cases hk' : k' = q.1
      · have hne : k' ≠ k := fun he => hq (hk' ▸ he ▸ rfl)
        simp [hk', hne, hq]
      · simp [hk']

theorem lookup_foldl_dictInsert (l : List (String × α)) (acc : List (String × α)) (k : String) :
    List.lookup k (l.foldl (fun d p => dictInsert d p.1 p.2) acc) =
      ((l.reverse.find? (fun p => p.1 == k)).map Prod.snd).or (List.lookup k acc) := by
  induction l generalizing acc with
  | nil => simp
  | cons p t ih =>
    rw [List.foldl_cons, ih, List.reverse_cons, List.find?_append]
    cases hA : t.reverse.find? (fun p => p.1 == k) with
    | some a => simp [Option.or]
    | none =>
      rw [lookup_dictInsert]
      by_cases hk : k = p.1
      · simp [Option.or, hk, List.find?]
      · have : (p.1 == k) = false := by
          simp [Ne.symm hk]
        simp [Option.or, hk, List.find?, this]

theorem lookup_dictOf (l : List (String × α)) (k : String) :
    List.lookup k (dictOf l) = (l.reverse.find? (fun p => p.1 == k)).map Prod.snd := by
  rw [dictOf, lookup_foldl_dictInsert]
  simp [List.lookup]

theorem mem_foldl_dictInsert {l acc : List (String × α)} {p : String × α}
    (h : p ∈ l.foldl (fun d q => dictInsert d q.1 q.2) acc) : p ∈ acc ∨ p ∈ l := by
  induction l generalizing acc with
  | nil => exact Or.inl h
  | cons q t ih =>
    rw [List.foldl_cons] at h
    rcases ih h with h1 | h1
    · rcases mem_dictInsert h1 with h2 | h2
      · right
        simp [h2]
      · exact Or.inl h2
    · exact Or.inr (List.mem_cons_of_mem _ h1)

theorem mem_dictOf {l : List (String × α)} {p : String × α} (h : p ∈ dictOf l) : p ∈ l := by
  rcases mem_foldl_dictInsert h with h1 | h1
  · simp at h1
  · exact h1

theorem nodup_keys_foldl_dictInsert (l : List (String × α)) (acc : List (String × α))
    (h : (acc.map Prod.fst).Nodup) :
    (((l.foldl (fun d p => dictInsert d p.1 p.2) acc)).map Prod.fst).Nodup := by
  induction l generalizing acc with
  | nil => exact h
  | cons p t ih => exact ih _ (nodup_keys_dictInsert _ _ h)

theorem nodup_keys_dictOf (l : List (String × α)) : ((dictOf l).map Prod.fst).Nodup :=
  nodup_keys_foldl_dictInsert l [] (by simp)

theorem mem_keys_foldl_dictInsert {l acc : List (String × α)} {k : String} :
    k ∈ ((l.foldl (fun d p => dictInsert d p.1 p.2) acc)).map Prod.fst ↔
      k ∈ acc.map Prod.fst ∨ k ∈ l.map Prod.fst := by
  induction l generalizing acc with
  | nil => simp
  | cons p t ih =>
    rw [List.foldl_cons, ih, keys_dictInsert]
    by_cases hm : p.1 ∈ acc.map Prod.fst
    · rw [if_pos hm]
      simp only [List.map_cons, List.mem_cons]
      constructor
      · intro h
        tauto
      · intro h
        rcases h with h | h | h
        · tauto
        · exact Or.inl (h ▸ hm)
        · tauto
    · rw [if_neg hm]
      simp only [List.mem_append, List.map_cons, List.mem_cons, List.mem_singleton,
        List.not_mem_nil, or_false]
      tauto

theorem mem_keys_dictOf {l : List (String × α)} {k : String} :
    k ∈ (dictOf l).map Prod.fst ↔ k ∈ l.map Prod.fst := by
  rw [dictOf, mem_keys_foldl_dictInsert]
  simp

/-! ### The two comprehension dicts -/

theorem mem_desired_pair {vs : List DesiredRes} {k : String} {d : DesiredRes}
    (h : (k, d) ∈ desired_by_mac vs) : k = dKey d ∧ d ∈ vs := by
  have hm := mem_dictOf h
  rcases List.mem_map.mp hm with ⟨r, hr, he⟩
  injection he with h1 h2
  subst h2
  exact ⟨h1.symm, hr⟩

theorem mem_existing_pair {obs : List UserRec} {k : String} {r : UserRec}
    (h : (k, r) ∈ existing_by_mac obs) : k = keyOf r ∧ r ∈ obs ∧ r.mac ≠ "" := by
  have hm := mem_dictOf h
  rcases List.mem_map.mp hm with ⟨u, hu, he⟩
  injection he with h1 h2
  subst h2
  rcases List.mem_filter.mp hu with ⟨h3, h4⟩
  refine ⟨h1.symm, h3, ?_⟩
  simpa using h4

theorem lookup_desired_by_mac (vs : List DesiredRes) (k : String) :
    List.lookup k (desired_by_mac vs) = vs.reverse.find? (fun d => dKey d == k) := by
  rw [desired_by_mac, lookup_dictOf, ← List.map_reverse, List.find?_map]
  rw [show ((fun p : String × DesiredRes => p.1 == k) ∘ fun r => (dKey r, r)) =
    (fun d => dKey d == k) from rfl]
  cases vs.reverse.find? (fun d => dKey d == k) <;> rfl

theorem lookup_existing_by_mac (obs : List UserRec) (k : String) :
    List.lookup k (existing_by_mac obs) =
      (obs.filter (fun r => r.mac != "")).reverse.find? (fun r => keyOf r == k) := by
  rw [existing_by_mac, lookup_dictOf, ← List.map_reverse, List.find?_map]
  rw [show ((fun p : String × UserRec => p.1 == k) ∘ fun r => (keyOf r, r)) =
    (fun r => keyOf r == k) from rfl]
  cases (obs.filter (fun r => r.mac != "")).reverse.find? (fun r => keyOf r == k) <;> rfl

theorem mem_keys_desired {vs : List DesiredRes} {k : String} :
    k ∈ (desired_by_mac vs).map Prod.fst ↔ k ∈ vs.map dKey := by
  rw [desired_by_mac, mem_keys_dictOf]
  constructor
  · intro h
    rcases List.mem_map.mp h with ⟨p, hp, he⟩
    rcases List.mem_map.mp hp with ⟨r, hr, he2⟩
    exact List.mem_map.mpr ⟨r, hr, by rw [← he, ← he2]⟩
  · intro h
    rcases List.mem_map.mp h with ⟨r, hr, he⟩
    exact List.mem_map.mpr ⟨(dKey r, r), List.mem_map.mpr ⟨r, hr, rfl⟩, he⟩

theorem mem_keys_existing {obs : List UserRec} {k : String} :
    k ∈ (existing_by_mac obs).map Prod.fst ↔
      k ∈ (obs.filter (fun r => r.mac != "")).map keyOf := by
  rw [existing_by_mac, mem_keys_dictOf]
  constructor
  · intro h
    rcases List.mem_map.mp h with ⟨p, hp, he⟩
    rcases List.mem_map.mp hp with ⟨r, hr, he2⟩
    exact List.mem_map.mpr ⟨r, hr, by rw [← he, ← he2]⟩
  · intro h
    rcases List.mem_map.mp h with ⟨r, hr, he⟩
    exact List.mem_map.mpr ⟨(keyOf r, r), List.mem_map.mpr ⟨r, hr, rfl⟩, he⟩

/-! ### Normalizer and validator lemmas -/

theorem toNat_ofNat_valid (n : Nat) (hv : n.isValidChar) : (Char.ofNat n).toNat = n := by
  rw [Char.ofNat, dif_pos hv]
  simp [Char.toNat, Char.ofNatAux, UInt32.toNat, BitVec.toNat_ofNatLt]

theorem pyLowerChar_toNat (c : Char) :
    (pyLowerChar c).toNat = if 65 ≤ c.toNat ∧ c.toNat ≤ 90 then c.toNat + 32 else c.toNat := by
  rw [pyLowerChar]
  by_cases h : 65 ≤ c.toNat ∧ c.toNat ≤ 90
  · rw [if_pos h, if_pos h]
    exact toNat_ofNat_valid _ (Or.inl (by omega))
  · rw [if_neg h, if_neg h]

theorem pyLowerChar_idem (c : Char) : pyLowerChar (pyLowerChar c) = pyLowerChar c := by
  rw [show pyLowerChar (pyLowerChar c) =
    if 65 ≤ (pyLowerChar c).toNat ∧ (pyLowerChar c).toNat ≤ 90 then
      Char.ofNat ((pyLowerChar c).toNat + 32) else pyLowerChar c from rfl]
  have h1 := pyLowerChar_toNat c
  have hno : ¬(65 ≤ (pyLowerChar c).toNat ∧ (pyLowerChar c).toNat ≤ 90) := by
    rw [h1]
    by_cases h : 65 ≤ c.toNat ∧ c.toNat ≤ 90
    · rw [if_pos h]
      omega
    · rw [if_neg h]
      omega
  rw [if_neg hno]

theorem normalize_pyLower (s : String) :
    normalize_mac_address (pyLower s) = normalize_mac_address s := by
  rw [normalize_mac_address, normalize_mac_address, pyLower]
  rw [show (String.mk (s.data.map pyLowerChar)).data = s.data.map pyLowerChar from rfl]
  rw [List.map_map, show (pyLowerChar ∘ pyLowerChar) = pyLowerChar from funext pyLowerChar_idem]

theorem pyLower_ne_empty {s : String} (h : s ≠ "") : pyLower s ≠ "" := by
  intro he
  apply h
  have hdata : s.data.map pyLowerChar = [] := congrArg String.data he
  exact String.ext (List.map_eq_nil_iff.mp hdata)

theorem hexChar_survives {c : Char} (h : isHexDigitChar c = true) :
    pyLowerChar c ≠ ':' ∧ pyLowerChar c ≠ '-' := by
  have h1 := pyLowerChar_toNat c
  have h2 : ((48 ≤ c.toNat ∧ c.toNat ≤ 57) ∨ (97 ≤ c.toNat ∧ c.toNat ≤ 102)) ∨
      (65 ≤ c.toNat ∧ c.toNat ≤ 70) := by
    simpa [isHexDigitChar, Bool.or_eq_true, Bool.and_eq_true, decide_eq_true_eq] using h
  have h3 : (pyLowerChar c).toNat ≠ 58 ∧ (pyLowerChar c).toNat ≠ 45 := by
    rw [h1]
    by_cases hcase : 65 ≤ c.toNat ∧ c.toNat ≤ 90
    · rw [if_pos hcase]
      omega
    · rw [if_neg hcase]
      rcases h2 with (h | h) | h <;> omega
  constructor
  · intro he
    refine h3.1 ?_
    rw [he]
    decide
  · intro he
    refine h3.2 ?_
    rw [he]
    decide

theorem validate_mac_head {m : String} (h : _validate_mac_address m = true) :
    ∃ c1 c2 rest, m.data = c1 :: c2 :: rest ∧ isHexDigitChar c1 = true := by
  rw [_validate_mac_address] at h
  rcases hd : m.data with _ | ⟨c1, t⟩
  · rw [hd] at h
    simp [chompGroups, chompHexPair] at h
  · rcases t with _ | ⟨c2, rest⟩
    · rw [hd] at h
      simp [chompGroups, chompHexPair] at h
    · refine ⟨c1, c2, rest, rfl, ?_⟩
      rw [hd] at h
      by_cases hx : isHexDigitChar c1 = true
      · exact hx
      · exfalso
        have hpair : chompHexPair (c1 :: c2 :: rest) = none := by
          rw [chompHexPair]
          simp [hx]
        have h5 : chompGroups 5 (c1 :: c2 :: rest) =
            match chompHexPair (c1 :: c2 :: rest) with
            | some r => chompGroups 4 (chompSep r)
            | none => none := rfl
        rw [h5, hpair] at h
        exact Bool.noConfusion h

theorem validate_mac_key_ne {m : String} (h : _validate_mac_address m = true) :
    normalize_mac_address m ≠ "" := by
  rcases validate_mac_head h with ⟨c1, c2, rest, hd, hx⟩
  intro he
  have hdata : (m.data.map pyLowerChar).filter (fun c => decide (c ≠ ':' ∧ c ≠ '-')) = [] :=
    congrArg String.data he
  rw [hd] at hdata
  rcases hexChar_survives hx with ⟨hs1, hs2⟩
  simp [hs1, hs2] at hdata

/-! ### Executor structure lemmas -/

theorem keyOf_flip (w : UserRec) (uid : Nat) :
    keyOf (if w.id = uid then { w with use_fixedip := false } else w) = keyOf w := by
  by_cases h : w.id = uid <;> simp [h, keyOf]

theorem remove_state_keys (st : List UserRec) (uid : Nat) :
    (_remove_user_fixed_ip_state st uid).map keyOf = st.map keyOf := by
  rw [_remove_user_fixed_ip_state, List.map_map]
  refine List.map_congr_left ?_
  intro w _
  exact keyOf_flip w uid

theorem delete_state_keys (st : List UserRec) (mac : String) (ok : Bool) :
    ((delete_dhcp_reservation_state st mac ok).2).map keyOf = st.map keyOf := by
  rw [delete_dhcp_reservation_state]
  cases h : _find_user_by_mac st mac with
  | none => rfl
  | some u =>
    cases ok with
    | false => rfl
    | true => exact remove_state_keys st u.id

theorem find_user_of_key {st : List UserRec} (mac : String)
    (hex : ∃ u ∈ st, keyOf u = normalize_mac_address mac) :
    ∃ u, _find_user_by_mac st mac = some u := by
  rcases hex with ⟨u, hu, hk⟩
  have hs : (st.find? (fun u => normalize_mac_address u.mac == normalize_mac_address mac)).isSome :=
    List.find?_isSome.mpr ⟨u, hu, by simp [keyOf] at hk; simp [hk]⟩
  rcases Option.isSome_iff_exists.mp hs with ⟨u0, hu0⟩
  exact ⟨u0, hu0⟩

theorem delete_fst {st : List UserRec} {r : UserRec} {ok : Bool}
    (hex : ∃ u ∈ st, keyOf u = keyOf r) :
    (delete_dhcp_reservation_state st r.mac ok).1 = ok := by
  rcases find_user_of_key r.mac hex with ⟨u, hf⟩
  rw [delete_dhcp_reservation_state, hf]
  cases ok <;> simp

theorem filter_range_succ (ok : Nat → Bool) (n i : Nat) :
    ((List.range (n + 1)).filter (fun j => ok (i + j))).length =
      (if ok i then 1 else 0) + ((List.range n).filter (fun j => ok (i + 1 + j))).length := by
  rw [List.range_succ_eq_map, List.filter_cons, List.filter_map]
  have h1 : ((fun j => ok (i + j)) ∘ Nat.succ) = (fun j => ok (i + 1 + j)) := by
    funext j
    simp only [Function.comp]
    exact congrArg ok (by omega)
  rw [h1]
  by_cases h : ok (i + 0)
  · have h' : ok i = true := by
      simpa using h
    simp [h, h', Nat.add_comm]
  · have h' : ¬ok i = true := by
      simpa using h
    simp [h, h']

theorem removePhase_trace (ok : Nat → Bool) (rs : List UserRec) :
    ∀ (st : List UserRec) (i : Nat),
      (removePhase ok st rs i).trace = rs.map Action.removeA := by
  induction rs with
  | nil =>
    intro st i
    rfl
  | cons r rest ih =>
    intro st i
    rw [show (removePhase ok st (r :: rest) i).trace = Action.removeA r ::
      (removePhase ok (delete_dhcp_reservation_state st r.mac (ok i)).2 rest (i + 1)).trace
        from rfl]
    rw [ih, List.map_cons]

theorem removePhase_okCount (ok : Nat → Bool) (rs : List UserRec) :
    ∀ (st : List UserRec) (i : Nat), (∀ r ∈ rs, ∃ u ∈ st, keyOf u = keyOf r) →
      (removePhase ok st rs i).okCount =
        ((List.range rs.length).filter (fun j => ok (i + j))).length := by
  induction rs with
  | nil =>
    intro st i _
    simp [removePhase]
  | cons r rest ih =>
    intro st i hex
    have hr := hex r (List.mem_cons_self _ _)
    have hfst : (delete_dhcp_reservation_state st r.mac (ok i)).1 = ok i := delete_fst hr
    have hkeys := delete_state_keys st r.mac (ok i)
    have hex2 : ∀ r' ∈ rest, ∃ u ∈ (delete_dhcp_reservation_state st r.mac (ok i)).2,
        keyOf u = keyOf r' := by
      intro r' hr'
      rcases hex r' (List.mem_cons_of_mem _ hr') with ⟨u, hu, hk⟩
      have hm : keyOf u ∈ ((delete_dhcp_reservation_state st r.mac (ok i)).2).map keyOf := by
        rw [hkeys]
        exact List.mem_map_of_mem _ hu
      rcases List.mem_map.mp hm with ⟨u', hu', he⟩
      exact ⟨u', hu', he.trans hk⟩
    rw [show (removePhase ok st (r :: rest) i).okCount =
      (if (delete_dhcp_reservation_state st r.mac (ok i)).1 then 1 else 0) +
        (removePhase ok (delete_dhcp_reservation_state st r.mac (ok i)).2 rest (i + 1)).okCount
        from rfl]
    rw [hfst, ih _ _ hex2, List.length_cons, filter_range_succ]

theorem validDesired_parts {d : DesiredRes} (hv : validDesired d = true) :
    _validate_mac_address d.mac_address = true ∧ _validate_ip_address d.reserved_ip = true := by
  rw [validDesired] at hv
  simp only [Bool.and_eq_true] at hv
  exact ⟨hv.1.2, hv.2⟩

theorem create_fst {st : List UserRec} {d : DesiredRes} {ok : Bool}
    (hv : validDesired d = true) :
    (create_dhcp_reservation_state st d.mac_address d.reserved_ip d.name d.hostname ok).1
      = ok := by
  rcases validDesired_parts hv with ⟨h3, h4⟩
  rw [create_dhcp_reservation_state]
  rw [h3, h4]
  cases hf : _find_user_by_mac st d.mac_address <;> cases ok <;> simp

theorem upsertPhase_trace (tag : DesiredRes → Action) (ok : Nat → Bool) (cs : List DesiredRes) :
    ∀ (st : List UserRec) (i : Nat),
      (upsertPhase tag ok st cs i).trace = cs.map tag := by
  induction cs with
  | nil =>
    intro st i
    rfl
  | cons d rest ih =>
    intro st i
    rw [show (upsertPhase tag ok st (d :: rest) i).trace = tag d ::
      (upsertPhase tag ok
        (create_dhcp_reservation_state st d.mac_address d.reserved_ip d.name d.hostname (ok i)).2
        rest (i + 1)).trace from rfl]
    rw [ih, List.map_cons]

theorem upsertPhase_okCount (tag : DesiredRes → Action) (ok : Nat → Bool) (cs : List DesiredRes) :
    ∀ (st : List UserRec) (i : Nat), (∀ d ∈ cs, validDesired d = true) →
      (upsertPhase tag ok st cs i).okCount =
        ((List.range cs.length).filter (fun j => ok (i + j))).length := by
  induction cs with
  | nil =>
    intro st i _
    simp [upsertPhase]
  | cons d rest ih =>
    intro st i hval
    have hd := hval d (List.mem_cons_self _ _)
    rw [show (upsertPhase tag ok st (d :: rest) i).okCount =
      (if (create_dhcp_reservation_state st d.mac_address d.reserved_ip d.name d.hostname
            (ok i)).1 then 1 else 0) +
        (upsertPhase tag ok
          (create_dhcp_reservation_state st d.mac_address d.reserved_ip d.name d.hostname
            (ok i)).2 rest (i + 1)).okCount from rfl]
    rw [create_fst hd, ih _ _ (fun d' h => hval d' (List.mem_cons_of_mem _ h)),
      List.length_cons, filter_range_succ]

theorem mem_de_valid {ds : List DesiredRes} {k : String} {d : DesiredRes}
    (h : (k, d) ∈ deOf ds) : validDesired d = true := by
  rcases mem_desired_pair h with ⟨_, hd⟩
  exact (List.mem_filter.mp hd).2

theorem toCreate_valid {ds : List DesiredRes} {ex : List (String × UserRec)} :
    ∀ d ∈ reservations_to_create (deOf ds) ex, validDesired d = true := by
  intro d hd
  rcases List.mem_map.mp hd with ⟨p, hp, he⟩
  have hpd := List.mem_filter.mp hp
  cases p
  cases he
  exact mem_de_valid hpd.1

theorem update_fn_eq {β : Type} (ex : List (String × UserRec)) (p : String × β)
    (nu : UserRec → β → Bool) {d : β}
    (he : (match List.lookup p.1 ex with
           | some e => if nu e p.2 then some p.2 else none
           | none => none) = some d) :
    p.2 = d ∧ ∃ e, List.lookup p.1 ex = some e ∧ nu e p.2 = true := by
  rcases h2 : List.lookup p.1 ex with _ | e
  · rw [h2] at he
    simp at he
  · rw [h2] at he
    by_cases hn : nu e p.2 = true
    · simp [hn] at he
      exact ⟨he, e, rfl, hn⟩
    · simp [hn] at he

theorem toUpdate_valid {ds : List DesiredRes} {ex : List (String × UserRec)} :
    ∀ d ∈ reservations_to_update (deOf ds) ex, validDesired d = true := by
  intro d hd
  rcases List.mem_filterMap.mp hd with ⟨p, hp, he⟩
  rcases update_fn_eq ex p needsUpdate he with ⟨hpd, _⟩
  exact hpd ▸ mem_de_valid hp

theorem toRemove_exists {st : List UserRec} {removeOrder : List String} :
    ∀ r ∈ reservations_to_remove (exOf st) removeOrder, ∃ u ∈ st, keyOf u = keyOf r := by
  intro r hr
  rcases List.mem_filterMap.mp hr with ⟨k, _, hlk⟩
  have hpair := lookup_mem hlk
  rcases mem_existing_pair hpair with ⟨_, hobs, _⟩
  exact ⟨r, (List.mem_filter.mp hobs).1, rfl⟩

theorem sync_apply (st : List UserRec) (ds : List DesiredRes) (resp : String)
    (removeOrder : List String) (okR okC okU : Nat → Bool)
    (hvs : (valid_reservations ds).isEmpty = false) :
    sync_reservations_from_json st ds false false resp removeOrder okR okC okU =
      applyPhases st (reservations_to_remove (exOf st) removeOrder)
        (reservations_to_create (deOf ds) (exOf st))
        (reservations_to_update (deOf ds) (exOf st)) okR okC okU false := by
  rw [sync_reservations_from_json]
  simp [hvs, exOf, deOf]

theorem applyPhases_trace (st : List UserRec) (toR : List UserRec) (toC toU : List DesiredRes)
    (okR okC okU : Nat → Bool) (g : Bool) :
    (applyPhases st toR toC toU okR okC okU g).trace =
      toR.map Action.removeA ++ toC.map Action.createA ++ toU.map Action.updateA := by
  rw [show (applyPhases st toR toC toU okR okC okU g).trace =
    (removePhase okR st toR 0).trace ++
      (upsertPhase Action.createA okC (removePhase okR st toR 0).state toC 0).trace ++
      (upsertPhase Action.updateA okU
        (upsertPhase Action.createA okC (removePhase okR st toR 0).state toC 0).state
        toU 0).trace from rfl]
  rw [removePhase_trace, upsertPhase_trace, upsertPhase_trace]

theorem zero_add_oracle (ok : Nat → Bool) : (fun j => ok (0 + j)) = fun j => ok j := by
  funext j
  rw [Nat.zero_add]

theorem applyPhases_removedOk (st : List UserRec) (toR : List UserRec) (toC toU : List DesiredRes)
    (okR okC okU : Nat → Bool) (g : Bool)
    (hex : ∀ r ∈ toR, ∃ u ∈ st, keyOf u = keyOf r) :
    (applyPhases st toR toC toU okR okC okU g).removedOk =
      ((List.range toR.length).filter (fun j => okR j)).length := by
  rw [show (applyPhases st toR toC toU okR okC okU g).removedOk =
    (removePhase okR st toR 0).okCount from rfl]
  rw [removePhase_okCount okR toR st 0 hex, zero_add_oracle]

theorem applyPhases_createdOk (st : List UserRec) (toR : List UserRec) (toC toU : List DesiredRes)
    (okR okC okU : Nat → Bool) (g : Bool)
    (hval : ∀ d ∈ toC, validDesired d = true) :
    (applyPhases st toR toC toU okR okC okU g).createdOk =
      ((List.range toC.length).filter (fun j => okC j)).length := by
  rw [show (applyPhases st toR toC toU okR okC okU g).createdOk =
    (upsertPhase Action.createA okC (removePhase okR st toR 0).state toC 0).okCount from rfl]
  rw [upsertPhase_okCount Action.createA okC toC _ 0 hval, zero_add_oracle]

theorem applyPhases_updatedOk (st : List UserRec) (toR : List UserRec) (toC toU : List DesiredRes)
    (okR okC okU : Nat → Bool) (g : Bool)
    (hval : ∀ d ∈ toU, validDesired d = true) :
    (applyPhases st toR toC toU okR okC okU g).updatedOk =
      ((List.range toU.length).filter (fun j => okU j)).length := by
  rw [show (applyPhases st toR toC toU okR okC okU g).updatedOk =
    (upsertPhase Action.updateA okU
      (upsertPhase Action.createA okC (removePhase okR st toR 0).state toC 0).state
      toU 0).okCount from rfl]
  rw [upsertPhase_okCount Action.updateA okU toU _ 0 hval, zero_add_oracle]

theorem filterMap_sublist_map (l : List α) (f : α → Option β) (g : α → β)
    (h : ∀ a, f a = none ∨ f a = some (g a)) : (l.filterMap f).Sublist (l.map g) := by
  induction l with
  | nil => simp
  | cons a t ih =>
    rw [List.map_cons, List.filterMap_cons]
    rcases h a with h1 | h1
    · rw [h1]
      exact ih.cons _
    · rw [h1]
      exact ih.cons₂ _

/-! ### State-shape lemmas for the all-success apply -/

theorem find?_eq_head_filter (p : α → Bool) (l : List α) :
    l.find? p = (l.filter p).head? := by
  induction l with
  | nil => rfl
  | cons a t ih =>
    rw [List.filter_cons]
    by_cases h : p a = true
    · rw [List.find?_cons_of_pos _ h, if_pos h]
      rfl
    · rw [List.find?_cons_of_neg _ (by simpa using h), if_neg h, ih]

theorem filter_key_nil {st : List UserRec} {k : String}
    (h : ∀ u ∈ st, keyOf u ≠ k) : st.filter (fun w => keyOf w == k) = [] := by
  rw [List.filter_eq_nil_iff]
  intro u hu
  simp [h u hu]

theorem filter_key_singleton {st : List UserRec} {u : UserRec} {k : String}
    (hnd : (st.map keyOf).Nodup) (hu : u ∈ st) (hk : keyOf u = k) :
    st.filter (fun w => keyOf w == k) = [u] := by
  induction st with
  | nil => simp at hu
  | cons a t ih =>
    rw [List.map_cons, List.nodup_cons] at hnd
    rw [List.filter_cons]
    rcases List.mem_cons.mp hu with h1 | h1
    · subst h1
      rw [if_pos (by simp [hk])]
      have hrest : t.filter (fun w => keyOf w == k) = [] := by
        refine filter_key_nil ?_
        intro w hw he
        exact hnd.1 (by rw [hk, ← he]; exact List.mem_map_of_mem _ hw)
      rw [hrest]
    · have hne : keyOf a ≠ k := by
        intro he
        exact hnd.1 (by rw [he, ← hk]; exact List.mem_map_of_mem _ h1)
      rw [if_neg (by simp [hne])]
      exact ih hnd.2 h1

theorem filter_key_map_pres {g : UserRec → UserRec} (hg : ∀ w, keyOf (g w) = keyOf w)
    (st : List UserRec) (k : String) :
    (st.map g).filter (fun w => keyOf w == k) = (st.filter (fun w => keyOf w == k)).map g := by
  rw [List.filter_map]
  have he : ((fun w => keyOf w == k) ∘ g) = (fun w => keyOf w == k) := by
    funext w
    simp [Function.comp, hg w]
  rw [he]

theorem map_keyOf_of_pres {g : UserRec → UserRec} (hg : ∀ w, keyOf (g w) = keyOf w)
    (st : List UserRec) : (st.map g).map keyOf = st.map keyOf := by
  rw [List.map_map]
  exact List.map_congr_left (fun w _ => hg w)

theorem map_id_of_pres {g : UserRec → UserRec} (hg : ∀ w, (g w).id = w.id)
    (st : List UserRec) :
    (st.map g).map (fun u => u.id) = st.map (fun u => u.id) := by
  rw [List.map_map]
  exact List.map_congr_left (fun w _ => hg w)

theorem keyOf_flipOff (w : UserRec) : keyOf (flipOff w) = keyOf w := rfl

theorem id_flipOff (w : UserRec) : (flipOff w).id = w.id := rfl

theorem keyOf_applyPayload (w : UserRec) (p : UpdatePayload) :
    keyOf (applyPayload w p) = keyOf w := rfl

theorem id_applyPayload (w : UserRec) (p : UpdatePayload) :
    (applyPayload w p).id = w.id := rfl

theorem keyOf_flipIfKey (kr : String) (w : UserRec) :
    keyOf (if keyOf w = kr then flipOff w else w) = keyOf w := by
  by_cases h : keyOf w = kr
  · rw [if_pos h, keyOf_flipOff]
  · rw [if_neg h]

theorem id_flipIfKey (kr : String) (w : UserRec) :
    (if keyOf w = kr then flipOff w else w).id = w.id := by
  by_cases h : keyOf w = kr
  · rw [if_pos h, id_flipOff]
  · rw [if_neg h]

theorem keyOf_flipIfMem (S : List String) (w : UserRec) :
    keyOf (if keyOf w ∈ S then flipOff w else w) = keyOf w := by
  by_cases h : keyOf w ∈ S
  · rw [if_pos h, keyOf_flipOff]
  · rw [if_neg h]

theorem id_flipIfMem (S : List String) (w : UserRec) :
    (if keyOf w ∈ S then flipOff w else w).id = w.id := by
  by_cases h : keyOf w ∈ S
  · rw [if_pos h, id_flipOff]
  · rw [if_neg h]

theorem keyOf_updIf (uid : Nat) (ip : String) (nm hn : Option String) (w : UserRec) :
    keyOf (if w.id = uid then applyPayload w (update_payload ip nm hn) else w) = keyOf w := by
  by_cases h : w.id = uid
  · rw [if_pos h, keyOf_applyPayload]
  · rw [if_neg h]

theorem id_updIf (uid : Nat) (ip : String) (nm hn : Option String) (w : UserRec) :
    (if w.id = uid then applyPayload w (update_payload ip nm hn) else w).id = w.id := by
  by_cases h : w.id = uid
  · rw [if_pos h, id_applyPayload]
  · rw [if_neg h]

theorem remove_step_state {st : List UserRec} {r : UserRec}
    (hkeys : (st.map keyOf).Nodup) (hids : (st.map (fun u => u.id)).Nodup)
    (hex : ∃ u ∈ st, keyOf u = keyOf r) :
    (delete_dhcp_reservation_state st r.mac true).2 =
      st.map (fun w => if keyOf w = keyOf r then flipOff w else w) := by
  rcases find_user_of_key r.mac hex with ⟨u0, hf⟩
  have hu0 : u0 ∈ st := List.mem_of_find?_eq_some hf
  have hk0 : keyOf u0 = keyOf r := by
    have := List.find?_some hf
    simpa [keyOf] using this
  rw [show (delete_dhcp_reservation_state st r.mac true) =
    (true, _remove_user_fixed_ip_state st u0.id) from by
      rw [delete_dhcp_reservation_state, hf]
      rfl]
  rw [show (true, _remove_user_fixed_ip_state st u0.id).2 =
    _remove_user_fixed_ip_state st u0.id from rfl]
  rw [_remove_user_fixed_ip_state]
  refine List.map_congr_left ?_
  intro w hw
  by_cases hid : w.id = u0.id
  · have hwu : w = u0 := List.inj_on_of_nodup_map hids hw hu0 hid
    rw [if_pos hid, hwu, if_pos hk0]
    rfl
  · have hwne : w ≠ u0 := fun he => hid (he ▸ rfl)
    have hkne : keyOf w ≠ keyOf r := by
      intro he
      exact hwne (List.inj_on_of_nodup_map hkeys hw hu0 (he.trans hk0.symm))
    rw [if_neg hid, if_neg hkne]

theorem removePhase_state (rs : List UserRec) :
    ∀ (st : List UserRec) (i : Nat), (st.map keyOf).Nodup →
      (st.map (fun u => u.id)).Nodup →
      (∀ r ∈ rs, ∃ u ∈ st, keyOf u = keyOf r) →
      (removePhase allTrue st rs i).state =
        st.map (fun w => if keyOf w ∈ rs.map keyOf then flipOff w else w) := by
  induction rs with
  | nil =>
    intro st i _ _ _
    rw [show (removePhase allTrue st [] i).state = st from rfl]
    have : ∀ w ∈ st, (if keyOf w ∈ ([] : List UserRec).map keyOf then flipOff w else w) = w := by
      intro w _
      rw [if_neg (by simp)]
    rw [List.map_congr_left this, List.map_id']
  | cons r rest ih =>
    intro st i hkeys hids hex
    have hr := hex r (List.mem_cons_self _ _)
    have hstep : (delete_dhcp_reservation_state st r.mac (allTrue i)).2 =
        st.map (fun w => if keyOf w = keyOf r then flipOff w else w) :=
      remove_step_state hkeys hids hr
    rw [show (removePhase allTrue st (r :: rest) i).state =
      (removePhase allTrue (delete_dhcp_reservation_state st r.mac (allTrue i)).2 rest
        (i + 1)).state from rfl]
    rw [hstep]
    have hkeys1 : ((st.map (fun w => if keyOf w = keyOf r then flipOff w else w)).map keyOf).Nodup := by
      rw [map_keyOf_of_pres (keyOf_flipIfKey (keyOf r))]
      exact hkeys
    have hids1 : ((st.map (fun w => if keyOf w = keyOf r then flipOff w else w)).map
        (fun u => u.id)).Nodup := by
      rw [map_id_of_pres (id_flipIfKey (keyOf r))]
      exact hids
    have hex1 : ∀ r2 ∈ rest, ∃ u ∈ st.map (fun w => if keyOf w = keyOf r then flipOff w else w),
        keyOf u = keyOf r2 := by
      intro r2 hr2
      rcases hex r2 (List.mem_cons_of_mem _ hr2) with ⟨u, hu, hk⟩
      refine ⟨if keyOf u = keyOf r then flipOff u else u, List.mem_map_of_mem _ hu, ?_⟩
      rw [keyOf_flipIfKey (keyOf r) u]
      exact hk
    rw [ih _ (i + 1) hkeys1 hids1 hex1, List.map_map]
    refine List.map_congr_left ?_
    intro w hw
    simp only [Function.comp]
    by_cases h1 : keyOf w = keyOf r
    · rw [if_pos h1]
      have hmemc : keyOf w ∈ (r :: rest).map keyOf := by
        rw [List.map_cons]
        exact List.mem_cons.mpr (Or.inl h1)
      rw [if_pos hmemc]
      by_cases h2 : keyOf (flipOff w) ∈ rest.map keyOf
      · rw [if_pos h2]
        rfl
      · rw [if_neg h2]
    · rw [if_neg h1]
      by_cases h2 : keyOf w ∈ rest.map keyOf
      · have hc : keyOf w ∈ (r :: rest).map keyOf := by
          rw [List.map_cons]
          exact List.mem_cons.mpr (Or.inr h2)
        rw [if_pos h2, if_pos hc]
      · have hc : keyOf w ∉ (r :: rest).map keyOf := by
          rw [List.map_cons]
          intro hmem
          rcases List.mem_cons.mp hmem with h3 | h3
          · exact h1 h3
          · exact h2 h3
        rw [if_neg h2, if_neg hc]

theorem filter_key_flipS (st : List UserRec) (S : List String) (k : String) :
    (st.map (fun w => if keyOf w ∈ S then flipOff w else w)).filter (fun w => keyOf w == k) =
      if k ∈ S then (st.filter (fun w => keyOf w == k)).map flipOff
      else st.filter (fun w => keyOf w == k) := by
  rw [filter_key_map_pres (keyOf_flipIfMem S) st k]
  by_cases hkS : k ∈ S
  · rw [if_pos hkS]
    refine List.map_congr_left ?_
    intro w hw
    have hk : keyOf w = k := by
      simpa using (List.mem_filter.mp hw).2
    rw [if_pos (hk ▸ hkS)]
  · rw [if_neg hkS]
    have hid : ∀ w ∈ st.filter (fun w => keyOf w == k),
        (if keyOf w ∈ S then flipOff w else w) = w := by
      intro w hw
      have hk : keyOf w = k := by
        simpa using (List.mem_filter.mp hw).2
      rw [if_neg (by rw [hk]; exact hkS)]
    rw [List.map_congr_left hid, List.map_id']

theorem validDesired_mac_ne {d : DesiredRes} (hv : validDesired d = true) :
    d.mac_address ≠ "" := by
  rw [validDesired] at hv
  simp only [Bool.and_eq_true] at hv
  simpa using hv.1.1.1

theorem create_state_reduce {st : List UserRec} {mac ip : String} {nm hn : Option String}
    (h3 : _validate_mac_address mac = true) (h4 : _validate_ip_address ip = true) :
    create_dhcp_reservation_state st mac ip nm hn true =
      match _find_user_by_mac st mac with
      | some u => (true, _update_user_fixed_ip_state st u.id ip nm hn)
      | none => (true, st ++ [newUser st mac ip nm hn]) := by
  rw [create_dhcp_reservation_state, h3, h4]
  cases hf : _find_user_by_mac st mac <;> simp [hf]

theorem create_state_found {st : List UserRec} {mac ip : String} {nm hn : Option String}
    {u : UserRec} (h3 : _validate_mac_address mac = true)
    (h4 : _validate_ip_address ip = true) (hf : _find_user_by_mac st mac = some u) :
    (create_dhcp_reservation_state st mac ip nm hn true).2 =
      _update_user_fixed_ip_state st u.id ip nm hn := by
  rw [create_state_reduce h3 h4, hf]

theorem create_state_missing {st : List UserRec} {mac ip : String} {nm hn : Option String}
    (h3 : _validate_mac_address mac = true) (h4 : _validate_ip_address ip = true)
    (hf : _find_user_by_mac st mac = none) :
    (create_dhcp_reservation_state st mac ip nm hn true).2 =
      st ++ [newUser st mac ip nm hn] := by
  rw [create_state_reduce h3 h4, hf]

theorem le_foldr_max {l : List Nat} {a : Nat} (h : a ∈ l) : a ≤ l.foldr max 0 := by
  induction l with
  | nil => simp at h
  | cons b t ih =>
    rw [List.foldr_cons]
    rcases List.mem_cons.mp h with h1 | h1
    · rw [h1]
      exact le_max_left _ _
    · exact le_trans (ih h1) (le_max_right _ _)

theorem freshId_not_mem {st : List UserRec} : freshId st ∉ st.map (fun u => u.id) := by
  intro hmem
  have h1 := le_foldr_max hmem
  have h2 : freshId st = (st.map (fun u => u.id)).foldr max 0 + 1 := rfl
  omega

theorem keyOf_newUser (st : List UserRec) (mac ip : String) (nm hn : Option String) :
    keyOf (newUser st mac ip nm hn) = normalize_mac_address mac := by
  rw [keyOf, show (newUser st mac ip nm hn).mac = pyLower mac from rfl, normalize_pyLower]

theorem upsert_step_nodup {st : List UserRec} (d : DesiredRes)
    (hkeys : (st.map keyOf).Nodup) (hids : (st.map (fun u => u.id)).Nodup)
    (hval : validDesired d = true) :
    (((create_dhcp_reservation_state st d.mac_address d.reserved_ip d.name d.hostname
        true).2).map keyOf).Nodup ∧
      (((create_dhcp_reservation_state st d.mac_address d.reserved_ip d.name d.hostname
        true).2).map (fun u => u.id)).Nodup := by
  rcases validDesired_parts hval with ⟨h3, h4⟩
  cases hf : _find_user_by_mac st d.mac_address with
  | some u =>
    rw [create_state_found h3 h4 hf]
    rw [_update_user_fixed_ip_state]
    constructor
    · rw [map_keyOf_of_pres (keyOf_updIf u.id d.reserved_ip d.name d.hostname)]
      exact hkeys
    · rw [map_id_of_pres (id_updIf u.id d.reserved_ip d.name d.hostname)]
      exact hids
  | none =>
    rw [create_state_missing h3 h4 hf]
    constructor
    · rw [List.map_append]
      refine List.Nodup.append hkeys (by simp) ?_
      intro a ha hb
      simp only [List.map_cons, List.map_nil, List.mem_singleton] at hb
      rw [keyOf_newUser] at hb
      rcases List.mem_map.mp ha with ⟨w, hw, hwk⟩
      have := List.find?_eq_none.mp hf w hw
      apply this
      rw [show keyOf w = normalize_mac_address w.mac from rfl] at hwk
      simp [hwk, hb]
    · rw [List.map_append]
      refine List.Nodup.append hids (by simp) ?_
      intro a ha hb
      simp only [List.map_cons, List.map_nil, List.mem_singleton] at hb
      rw [show (newUser st d.mac_address d.reserved_ip d.name d.hostname).id =
        freshId st from rfl] at hb
      exact freshId_not_mem (hb ▸ ha)

theorem upsert_other_keys {st : List UserRec} {d : DesiredRes} {k : String}
    (hids : (st.map (fun u => u.id)).Nodup) (hval : validDesired d = true)
    (hk : k ≠ dKey d) :
    ((create_dhcp_reservation_state st d.mac_address d.reserved_ip d.name d.hostname
        true).2).filter (fun w => keyOf w == k) = st.filter (fun w => keyOf w == k) := by
  rcases validDesired_parts hval with ⟨h3, h4⟩
  cases hf : _find_user_by_mac st d.mac_address with
  | some u =>
    rw [create_state_found h3 h4 hf]
    rw [_update_user_fixed_ip_state,
      filter_key_map_pres (keyOf_updIf u.id d.reserved_ip d.name d.hostname)]
    have hu : u ∈ st := List.mem_of_find?_eq_some hf
    have hku : keyOf u = dKey d := by
      have := List.find?_some hf
      simpa [keyOf, dKey] using this
    have hid : ∀ w ∈ st.filter (fun w => keyOf w == k),
        (if w.id = u.id then
          applyPayload w (update_payload d.reserved_ip d.name d.hostname) else w) = w := by
      intro w hw
      have hkw : keyOf w = k := by
        simpa using (List.mem_filter.mp hw).2
      have hwne : w ≠ u := by
        intro he
        exact hk (by rw [← hkw, he, hku])
      refine if_neg ?_
      intro hide
      exact hwne (List.inj_on_of_nodup_map hids (List.mem_filter.mp hw).1 hu hide)
    rw [List.map_congr_left hid, List.map_id']
  | none =>
    rw [create_state_missing h3 h4 hf]
    rw [List.filter_append]
    have hone : ([newUser st d.mac_address d.reserved_ip d.name d.hostname].filter
        (fun w => keyOf w == k)) = [] := by
      rw [List.filter_cons]
      rw [if_neg ?_, List.filter_nil]
      rw [keyOf_newUser]
      rw [dKey] at hk
      simp [Ne.symm hk]
    rw [hone, List.append_nil]

theorem truthy_of_opt {o : Option String} (h : truthyStr o) :
    ∃ s, o = some s ∧ s ≠ "" ∧ truthyOpt o = some s := by
  rcases h with ⟨s, hs, hne⟩
  exact ⟨s, hs, hne, by simp [hs, truthyOpt, hne]⟩

theorem upsert_self_key {st : List UserRec} {d : DesiredRes}
    (hkeys : (st.map keyOf).Nodup) (hids : (st.map (fun u => u.id)).Nodup)
    (hval : validDesired d = true) (hn : truthyStr d.name) (hh : truthyStr d.hostname) :
    ∃ u2, ((create_dhcp_reservation_state st d.mac_address d.reserved_ip d.name d.hostname
        true).2).filter (fun w => keyOf w == dKey d) = [u2] ∧
      matchesDesired u2 d ∧ u2.mac ≠ "" := by
  rcases validDesired_parts hval with ⟨h3, h4⟩
  rcases truthy_of_opt hn with ⟨s1, hs1, hs1ne, ht1⟩
  rcases truthy_of_opt hh with ⟨s2, hs2, hs2ne, ht2⟩
  cases hf : _find_user_by_mac st d.mac_address with
  | some u =>
    rw [create_state_found h3 h4 hf]
    have hu : u ∈ st := List.mem_of_find?_eq_some hf
    have hku : keyOf u = dKey d := by
      have := List.find?_some hf
      simpa [keyOf, dKey] using this
    rw [_update_user_fixed_ip_state,
      filter_key_map_pres (keyOf_updIf u.id d.reserved_ip d.name d.hostname),
      filter_key_singleton hkeys hu hku]
    refine ⟨applyPayload u (update_payload d.reserved_ip d.name d.hostname), ?_, ?_, ?_⟩
    · rw [List.map_cons, List.map_nil, if_pos rfl]
    · simp [matchesDesired, applyPayload, update_payload, truthyOpt, hs1, hs2, hs1ne, hs2ne]
    · rw [show (applyPayload u (update_payload d.reserved_ip d.name d.hostname)).mac =
        u.mac from rfl]
      intro he
      have : keyOf u = "" := by
        rw [keyOf, he]
        rfl
      rw [hku] at this
      exact validate_mac_key_ne h3 this
  | none =>
    rw [create_state_missing h3 h4 hf]
    rw [List.filter_append]
    have hnil : st.filter (fun w => keyOf w == dKey d) = [] := by
      refine filter_key_nil ?_
      intro w hw he
      have hfw := List.find?_eq_none.mp hf w hw
      apply hfw
      rw [show keyOf w = normalize_mac_address w.mac from rfl, dKey] at he
      simp [he]
    rw [hnil, List.nil_append, List.filter_cons]
    rw [if_pos (by rw [keyOf_newUser, dKey]; simp), List.filter_nil]
    refine ⟨newUser st d.mac_address d.reserved_ip d.name d.hostname, rfl, ?_, ?_⟩
    · simp [matchesDesired, newUser, truthyOpt, hs1, hs2, hs1ne, hs2ne]
    · exact pyLower_ne_empty (validDesired_mac_ne hval)

theorem upsertPhase_filters (tag : DesiredRes → Action) (cs : List DesiredRes) :
    ∀ (st : List UserRec) (i : Nat), (st.map keyOf).Nodup →
      (st.map (fun u => u.id)).Nodup → (cs.map dKey).Nodup →
      (∀ d ∈ cs, validDesired d = true ∧ truthyStr d.name ∧ truthyStr d.hostname) →
      ((((upsertPhase tag allTrue st cs i).state).map keyOf).Nodup ∧
        (((upsertPhase tag allTrue st cs i).state).map (fun u => u.id)).Nodup) ∧
      (∀ k, k ∉ cs.map dKey →
        ((upsertPhase tag allTrue st cs i).state).filter (fun w => keyOf w == k) =
          st.filter (fun w => keyOf w == k)) ∧
      (∀ d ∈ cs, ∃ u2,
        ((upsertPhase tag allTrue st cs i).state).filter (fun w => keyOf w == dKey d) = [u2] ∧
          matchesDesired u2 d ∧ u2.mac ≠ "") := by
  induction cs with
  | nil =>
    intro st i hkeys hids _ _
    refine ⟨⟨hkeys, hids⟩, ?_, ?_⟩
    · intro k _
      rfl
    · intro d hd
      simp at hd
  | cons d0 rest ih =>
    intro st i hkeys hids hcs hval
    rcases hval d0 (List.mem_cons_self _ _) with ⟨hv0, hn0, hh0⟩
    rw [List.map_cons, List.nodup_cons] at hcs
    have hstep := upsert_step_nodup d0 hkeys hids hv0
    have hrec := ih (create_dhcp_reservation_state st d0.mac_address d0.reserved_ip d0.name
        d0.hostname true).2 (i + 1) hstep.1 hstep.2 hcs.2
      (fun d hd => hval d (List.mem_cons_of_mem _ hd))
    have hstate : (upsertPhase tag allTrue st (d0 :: rest) i).state =
        (upsertPhase tag allTrue (create_dhcp_reservation_state st d0.mac_address d0.reserved_ip
          d0.name d0.hostname true).2 rest (i + 1)).state := rfl
    refine ⟨⟨?_, ?_⟩, ?_, ?_⟩
    · rw [hstate]
      exact hrec.1.1
    · rw [hstate]
      exact hrec.1.2
    · intro k hk
      rw [List.map_cons, List.mem_cons] at hk
      push_neg at hk
      rw [hstate, hrec.2.1 k hk.2]
      exact upsert_other_keys hids hv0 hk.1
    · intro d hd
      rcases List.mem_cons.mp hd with h1 | h1
      · subst h1
        rcases upsert_self_key hkeys hids hv0 hn0 hh0 with ⟨u2, hfil, hmat, hmac⟩
        refine ⟨u2, ?_, hmat, hmac⟩
        rw [hstate, hrec.2.1 (dKey d) hcs.1, hfil]
      · rcases hrec.2.2 d h1 with ⟨u2, hfil, hmat, hmac⟩
        refine ⟨u2, ?_, hmat, hmac⟩
        rw [hstate]
        exact hfil

theorem nodup_keys_deOf (ds : List DesiredRes) : ((deOf ds).map Prod.fst).Nodup :=
  nodup_keys_dictOf _

theorem nodup_keys_exOf (st : List UserRec) : ((exOf st).map Prod.fst).Nodup :=
  nodup_keys_dictOf _

theorem lookup_exOf_of_filter {st : List UserRec} {k : String} {u : UserRec}
    (h : st.filter (fun w => keyOf w == k) = [u])
    (hu : u.use_fixedip = true) (hm : u.mac ≠ "") :
    List.lookup k (exOf st) = some u := by
  have hC : ((st.filter (fun u => u.use_fixedip)).filter (fun r => r.mac != "")).filter
      (fun w => keyOf w == k) = [u] := by
    have h2 : (st.filter (fun w => keyOf w == k)).filter
        (fun a => (a.mac != "") && a.use_fixedip) = [u] := by
      rw [h, List.filter_cons]
      rw [if_pos (by simp [hu, hm])]
      rfl
    rw [List.filter_filter] at h2
    rw [List.filter_filter, List.filter_filter]
    refine Eq.trans ?_ h2
    apply List.filter_congr
    intro a _
    cases hA : keyOf a == k <;> cases hB : a.mac != "" <;> cases hC2 : a.use_fixedip <;>
      simp [hA, hB, hC2]
  rw [exOf, lookup_existing_by_mac, get_dhcp_reservations, find?_eq_head_filter]
  rw [show ((st.filter (fun u => u.use_fixedip)).filter (fun r => r.mac != "")).reverse.filter
      (fun r => keyOf r == k) =
    (((st.filter (fun u => u.use_fixedip)).filter (fun r => r.mac != "")).filter
      (fun r => keyOf r == k)).reverse from by rw [List.filter_reverse]]
  rw [hC]
  rfl

theorem lookup_exOf_some_mem {st : List UserRec} {k : String} {r : UserRec}
    (h : List.lookup k (exOf st) = some r) :
    r ∈ st ∧ keyOf r = k ∧ r.use_fixedip = true ∧ r.mac ≠ "" := by
  have hp := lookup_mem h
  rcases mem_existing_pair hp with ⟨hk, hobs, hm⟩
  rcases List.mem_filter.mp hobs with ⟨hst, huse⟩
  exact ⟨hst, hk.symm, by simpa using huse, hm⟩

theorem mem_canon_iff {ex : List (String × UserRec)} {de : List (String × DesiredRes)}
    {k : String} :
    k ∈ macs_to_remove_canon ex de ↔ k ∈ ex.map Prod.fst ∧ k ∉ de.map Prod.fst := by
  rw [macs_to_remove_canon, List.mem_filter]
  constructor
  · rintro ⟨h1, h2⟩
    refine ⟨h1, ?_⟩
    intro hm
    rw [show ((de.map Prod.fst).contains k) = true from by simpa using hm] at h2
    exact Bool.noConfusion h2
  · rintro ⟨h1, h2⟩
    refine ⟨h1, ?_⟩
    cases hc : (de.map Prod.fst).contains k
    · rfl
    · exact absurd (List.elem_iff.mp hc) h2

theorem toRemove_keys {ex : List (String × UserRec)} (ro : List String)
    (hmem : ∀ k ∈ ro, ∃ r, List.lookup k ex = some r)
    (hpair : ∀ k r, List.lookup k ex = some r → keyOf r = k) :
    (reservations_to_remove ex ro).map keyOf = ro := by
  induction ro with
  | nil => rfl
  | cons k t ih =>
    rcases hmem k (List.mem_cons_self _ _) with ⟨r, hr⟩
    have hstep : reservations_to_remove ex (k :: t) = r :: reservations_to_remove ex t := by
      rw [reservations_to_remove, List.filterMap_cons, hr]
      rfl
    rw [hstep, List.map_cons, hpair k r hr,
      ih (fun k2 h2 => hmem k2 (List.mem_cons_of_mem _ h2))]

theorem mem_toC_of {ds : List DesiredRes} {ex : List (String × UserRec)} {k : String}
    {d : DesiredRes} (hd : List.lookup k (deOf ds) = some d)
    (hnone : List.lookup k ex = none) :
    d ∈ reservations_to_create (deOf ds) ex := by
  refine List.mem_map.mpr ⟨(k, d), List.mem_filter.mpr ⟨lookup_mem hd, ?_⟩, rfl⟩
  simp [hnone]

theorem mem_toU_of {ds : List DesiredRes} {ex : List (String × UserRec)} {k : String}
    {d : DesiredRes} {r : UserRec} (hd : List.lookup k (deOf ds) = some d)
    (hr : List.lookup k ex = some r) (hne : needsUpdate r d = true) :
    d ∈ reservations_to_update (deOf ds) ex := by
  refine List.mem_filterMap.mpr ⟨(k, d), lookup_mem hd, ?_⟩
  simp [hr, hne]

theorem not_key_toC {ds : List DesiredRes} {ex : List (String × UserRec)} {k : String}
    {r : UserRec} (hl : List.lookup k ex = some r) :
    k ∉ (reservations_to_create (deOf ds) ex).map dKey := by
  intro hk
  rcases List.mem_map.mp hk with ⟨d2, hd2, he⟩
  rcases List.mem_map.mp hd2 with ⟨p, hp, he2⟩
  rcases List.mem_filter.mp hp with ⟨hpde, hpnone⟩
  have hp1 : p.1 = dKey p.2 := (mem_desired_pair (by simpa using hpde)).1
  rw [he2, he] at hp1
  rw [hp1, hl] at hpnone
  exact Bool.noConfusion hpnone

theorem not_key_toU {ds : List DesiredRes} {ex : List (String × UserRec)} {k : String}
    {d : DesiredRes} (hd : List.lookup k (deOf ds) = some d)
    (hcase : List.lookup k ex = none ∨
      (∃ r, List.lookup k ex = some r ∧ needsUpdate r d = false)) :
    k ∉ (reservations_to_update (deOf ds) ex).map dKey := by
  intro hk
  rcases List.mem_map.mp hk with ⟨d2, hd2, he⟩
  rcases List.mem_filterMap.mp hd2 with ⟨p, hp, hfe⟩
  rcases update_fn_eq ex p needsUpdate hfe with ⟨hpd, e, hle, hne⟩
  have hp1 : p.1 = dKey p.2 := (mem_desired_pair (by simpa using hp)).1
  rw [hpd, he] at hp1
  have hlk : List.lookup k (deOf ds) = some p.2 := by
    rw [← hp1]
    exact lookup_of_mem_nodup (nodup_keys_deOf ds) (by simpa using hp)
  have hdp : d = p.2 := by
    rw [hd] at hlk
    exact Option.some.inj hlk
  rw [hp1] at hle
  rcases hcase with h1 | ⟨r, h1, h2⟩
  · rw [h1] at hle
    exact Option.noConfusion hle
  · rw [h1] at hle
    cases Option.some.inj hle
    rw [← hdp] at hne
    rw [hne] at h2
    exact Bool.noConfusion h2

theorem toC_keys_sub {ds : List DesiredRes} {ex : List (String × UserRec)} {k : String}
    (hk : k ∈ (reservations_to_create (deOf ds) ex).map dKey) :
    k ∈ (deOf ds).map Prod.fst := by
  rcases List.mem_map.mp hk with ⟨d2, hd2, he⟩
  rcases List.mem_map.mp hd2 with ⟨p, hp, he2⟩
  have hpde := (List.mem_filter.mp hp).1
  have hp1 : p.1 = dKey p.2 := (mem_desired_pair (by simpa using hpde)).1
  refine List.mem_map.mpr ⟨p, hpde, ?_⟩
  rw [hp1, he2, he]

theorem toU_keys_sub {ds : List DesiredRes} {ex : List (String × UserRec)} {k : String}
    (hk : k ∈ (reservations_to_update (deOf ds) ex).map dKey) :
    k ∈ (deOf ds).map Prod.fst := by
  rcases List.mem_map.mp hk with ⟨d2, hd2, he⟩
  rcases List.mem_filterMap.mp hd2 with ⟨p, hp, hfe⟩
  rcases update_fn_eq ex p needsUpdate hfe with ⟨hpd, _, _, _⟩
  have hp1 : p.1 = dKey p.2 := (mem_desired_pair (by simpa using hp)).1
  refine List.mem_map.mpr ⟨p, hp, ?_⟩
  rw [hp1, hpd, he]

theorem toC_keys_eq (ds : List DesiredRes) (ex : List (String × UserRec)) :
    (reservations_to_create (deOf ds) ex).map dKey =
      ((deOf ds).filter (fun p => (List.lookup p.1 ex).isNone)).map Prod.fst := by
  rw [reservations_to_create, List.map_map]
  refine List.map_congr_left ?_
  intro p hp
  have hpde := (List.mem_filter.mp hp).1
  exact ((mem_desired_pair (by simpa using hpde)).1).symm

theorem toC_keys_nodup (ds : List DesiredRes) (ex : List (String × UserRec)) :
    ((reservations_to_create (deOf ds) ex).map dKey).Nodup := by
  rw [toC_keys_eq]
  exact (nodup_keys_deOf ds).sublist ((List.filter_sublist _).map _)

theorem toU_keys_nodup (ds : List DesiredRes) (ex : List (String × UserRec)) :
    ((reservations_to_update (deOf ds) ex).map dKey).Nodup := by
  have hsub : (reservations_to_update (deOf ds) ex).Sublist ((deOf ds).map Prod.snd) := by
    rw [reservations_to_update]
    refine filterMap_sublist_map _ _ _ ?_
    intro p
    rcases h2 : List.lookup p.1 ex with _ | e
    · left
      rfl
    · by_cases hn : needsUpdate e p.2 = true
      · right
        simp [h2, hn]
      · left
        simp [h2, hn]
  have hsub2 := hsub.map dKey
  have heq : ((deOf ds).map Prod.snd).map dKey = (deOf ds).map Prod.fst := by
    rw [List.map_map]
    refine List.map_congr_left ?_
    intro p hp
    exact ((mem_desired_pair (by simpa using hp)).1).symm
  rw [heq] at hsub2
  exact (nodup_keys_deOf ds).sublist hsub2

theorem toC_in_vs {ds : List DesiredRes} {ex : List (String × UserRec)} {d : DesiredRes}
    (hd : d ∈ reservations_to_create (deOf ds) ex) : d ∈ valid_reservations ds := by
  rcases List.mem_map.mp hd with ⟨p, hp, he⟩
  have hpde := (List.mem_filter.mp hp).1
  have hmem := (mem_desired_pair (show (p.1, p.2) ∈
    desired_by_mac (valid_reservations ds) by simpa using hpde)).2
  rw [he] at hmem
  exact hmem

theorem toU_in_vs {ds : List DesiredRes} {ex : List (String × UserRec)} {d : DesiredRes}
    (hd : d ∈ reservations_to_update (deOf ds) ex) : d ∈ valid_reservations ds := by
  rcases List.mem_filterMap.mp hd with ⟨p, hp, hfe⟩
  rcases update_fn_eq ex p needsUpdate hfe with ⟨hpd, _, _, _⟩
  have hmem := (mem_desired_pair (show (p.1, p.2) ∈
    desired_by_mac (valid_reservations ds) by simpa using hp)).2
  rw [hpd] at hmem
  exact hmem

theorem needsUpdate_false_of_matches {u : UserRec} {d : DesiredRes}
    (h : matchesDesired u d) : needsUpdate u d = false := by
  rcases h with ⟨h1, _, h3, h4⟩
  rw [needsUpdate]
  simp [h1, h3, h4]

theorem truthyStr_of_ne {o : Option String} (h : truthyOpt o ≠ none) : truthyStr o := by
  cases o with
  | none => simp [truthyOpt] at h
  | some s =>
    by_cases hs : s = ""
    · rw [hs] at h
      simp [truthyOpt] at h
    · exact ⟨s, rfl, hs⟩

theorem matches_of_not_needsUpdate {r : UserRec} {d : DesiredRes}
    (h : needsUpdate r d = false) (hu : r.use_fixedip = true) : matchesDesired r d := by
  rw [needsUpdate] at h
  simp only [Bool.or_eq_false_iff, bne_eq_false_iff_eq] at h
  exact ⟨h.1.1, hu, h.1.2, h.2⟩

theorem toRemove_keys_of_perm (st : List UserRec) (ds : List DesiredRes)
    (removeOrder : List String)
    (hro : removeOrder.Perm (macs_to_remove_canon (exOf st) (deOf ds))) :
    (reservations_to_remove (exOf st) removeOrder).map keyOf = removeOrder := by
  refine toRemove_keys removeOrder ?_ ?_
  · intro k hk
    have hkc : k ∈ macs_to_remove_canon (exOf st) (deOf ds) := hro.mem_iff.mp hk
    have hkex : k ∈ (exOf st).map Prod.fst := (mem_canon_iff.mp hkc).1
    rcases ho : List.lookup k (exOf st) with _ | r
    · exact absurd hkex (lookup_eq_none_iff.mp ho)
    · exact ⟨r, rfl⟩
  · intro k r hr
    exact (mem_existing_pair (lookup_mem hr)).1.symm

theorem finalState_filters (st : List UserRec) (ds : List DesiredRes)
    (removeOrder : List String)
    (hkeys : (st.map keyOf).Nodup) (hids : (st.map (fun u => u.id)).Nodup)
    (hname : ∀ d ∈ valid_reservations ds,
      truthyOpt d.name ≠ none ∧ truthyOpt d.hostname ≠ none)
    (hro : removeOrder.Perm (macs_to_remove_canon (exOf st) (deOf ds))) :
    (∀ p ∈ deOf ds, ∃ u2,
      (finalState st ds removeOrder).filter (fun w => keyOf w == p.1) = [u2] ∧
        matchesDesired u2 p.2 ∧ u2.mac ≠ "") ∧
      (∀ k, k ∉ (deOf ds).map Prod.fst →
        (finalState st ds removeOrder).filter (fun w => keyOf w == k) =
          if k ∈ (reservations_to_remove (exOf st) removeOrder).map keyOf then
            (st.filter (fun w => keyOf w == k)).map flipOff
          else st.filter (fun w => keyOf w == k)) := by
  have hexist : ∀ r ∈ reservations_to_remove (exOf st) removeOrder,
      ∃ u ∈ st, keyOf u = keyOf r := toRemove_exists
  have h1state : (removePhase allTrue st (reservations_to_remove (exOf st) removeOrder) 0).state =
      st.map (fun w =>
        if keyOf w ∈ (reservations_to_remove (exOf st) removeOrder).map keyOf then flipOff w
        else w) :=
    removePhase_state _ st 0 hkeys hids hexist
  have htoRkeys := toRemove_keys_of_perm st ds removeOrder hro
  have hkeys1 : ((st.map (fun w =>
      if keyOf w ∈ (reservations_to_remove (exOf st) removeOrder).map keyOf then flipOff w
      else w)).map keyOf).Nodup := by
    rw [map_keyOf_of_pres (keyOf_flipIfMem _)]
    exact hkeys
  have hids1 : ((st.map (fun w =>
      if keyOf w ∈ (reservations_to_remove (exOf st) removeOrder).map keyOf then flipOff w
      else w)).map (fun u => u.id)).Nodup := by
    rw [map_id_of_pres (id_flipIfMem _)]
    exact hids
  have hCval : ∀ d ∈ reservations_to_create (deOf ds) (exOf st),
      validDesired d = true ∧ truthyStr d.name ∧ truthyStr d.hostname := by
    intro d hd
    rcases hname d (toC_in_vs hd) with ⟨hn, hh⟩
    exact ⟨toCreate_valid d hd, truthyStr_of_ne hn, truthyStr_of_ne hh⟩
  have hUval : ∀ d ∈ reservations_to_update (deOf ds) (exOf st),
      validDesired d = true ∧ truthyStr d.name ∧ truthyStr d.hostname := by
    intro d hd
    rcases hname d (toU_in_vs hd) with ⟨hn, hh⟩
    exact ⟨toUpdate_valid d hd, truthyStr_of_ne hn, truthyStr_of_ne hh⟩
  have hC := upsertPhase_filters Action.createA (reservations_to_create (deOf ds) (exOf st))
    (st.map (fun w =>
      if keyOf w ∈ (reservations_to_remove (exOf st) removeOrder).map keyOf then flipOff w
      else w)) 0 hkeys1 hids1 (toC_keys_nodup ds (exOf st)) hCval
  have hU := upsertPhase_filters Action.updateA (reservations_to_update (deOf ds) (exOf st))
    ((upsertPhase Action.createA allTrue
      (st.map (fun w =>
        if keyOf w ∈ (reservations_to_remove (exOf st) removeOrder).map keyOf then flipOff w
        else w)) (reservations_to_create (deOf ds) (exOf st)) 0).state) 0
    hC.1.1 hC.1.2 (toU_keys_nodup ds (exOf st)) hUval
  constructor
  · intro p hp
    have hp2 : (p.1, p.2) ∈ desired_by_mac (valid_reservations ds) := by
      simpa using hp
    have hk1 : p.1 = dKey p.2 := (mem_desired_pair hp2).1
    have hlp : List.lookup p.1 (deOf ds) = some p.2 :=
      lookup_of_mem_nodup (nodup_keys_deOf ds) (by simpa using hp)
    have hknotRO : p.1 ∉ (reservations_to_remove (exOf st) removeOrder).map keyOf := by
      rw [htoRkeys]
      intro hmem
      have hkc := hro.mem_iff.mp hmem
      exact (mem_canon_iff.mp hkc).2 (List.mem_map.mpr ⟨p, hp, rfl⟩)
    have hf1 : (st.map (fun w =>
        if keyOf w ∈ (reservations_to_remove (exOf st) removeOrder).map keyOf then flipOff w
        else w)).filter (fun w => keyOf w == p.1) = st.filter (fun w => keyOf w == p.1) := by
      rw [filter_key_flipS, if_neg hknotRO]
    rw [finalState, h1state, hk1]
    rw [hk1] at hlp hf1
    rcases hl : List.lookup (dKey p.2) (exOf st) with _ | r
    · have hdC : p.2 ∈ reservations_to_create (deOf ds) (exOf st) := mem_toC_of hlp hl
      rcases hC.2.2 p.2 hdC with ⟨u2, hfil2, hmat, hmac⟩
      have hnotU : dKey p.2 ∉ (reservations_to_update (deOf ds) (exOf st)).map dKey :=
        not_key_toU hlp (Or.inl hl)
      refine ⟨u2, ?_, hmat, hmac⟩
      rw [hU.2.1 (dKey p.2) hnotU]
      exact hfil2
    · rcases lookup_exOf_some_mem hl with ⟨hrst, hrk, hruse, hrmac⟩
      have hfilst : st.filter (fun w => keyOf w == dKey p.2) = [r] :=
        filter_key_singleton hkeys hrst hrk
      cases hnu : needsUpdate r p.2 with
      | true =>
        have hdU : p.2 ∈ reservations_to_update (deOf ds) (exOf st) := mem_toU_of hlp hl hnu
        rcases hU.2.2 p.2 hdU with ⟨u2, hfil3, hmat, hmac⟩
        exact ⟨u2, hfil3, hmat, hmac⟩
      | false =>
        have hnotC : dKey p.2 ∉ (reservations_to_create (deOf ds) (exOf st)).map dKey :=
          not_key_toC hl
        have hnotU : dKey p.2 ∉ (reservations_to_update (deOf ds) (exOf st)).map dKey :=
          not_key_toU hlp (Or.inr ⟨r, hl, hnu⟩)
        refine ⟨r, ?_, matches_of_not_needsUpdate hnu hruse, hrmac⟩
        rw [hU.2.1 (dKey p.2) hnotU, hC.2.1 (dKey p.2) hnotC, hf1, hfilst]
  · intro k hkde
    have hnotC : k ∉ (reservations_to_create (deOf ds) (exOf st)).map dKey := by
      intro hc
      exact hkde (toC_keys_sub hc)
    have hnotU : k ∉ (reservations_to_update (deOf ds) (exOf st)).map dKey := by
      intro hc
      exact hkde (toU_keys_sub hc)
    rw [finalState, h1state, hU.2.1 k hnotU, hC.2.1 k hnotC, filter_key_flipS]

/-! ### Claims -/

/-- C1 (counterexample). Two desired entries normalizing to the same key do
not make the run fail and do not prevent mutation: on `dupA`/`dupB` over an
empty observed state the run performs one create — built from the later
entry, resolving the ambiguity by silent precedence — and returns success. -/
theorem claim1_counterexample :
    dKey dupA = dKey dupB ∧
      (sync_reservations_from_json [] [dupA, dupB] false true "unused" []
          allTrue allTrue allTrue).trace = [Action.createA dupB] ∧
      (sync_reservations_from_json [] [dupA, dupB] false true "unused" []
          allTrue allTrue allTrue).retval = true := by
  refine ⟨by decide, by decide, by decide⟩

/-- C1 (amended). Duplicate keys in the desired collection are not detected:
`desired_by_mac` silently resolves every key to the LAST valid entry that
normalizes to it (Python dict comprehension precedence), and the run
proceeds on the deduplicated collection; no `DuplicateKeyError` exists. -/
theorem claim1_duplicate_keys_silent_precedence (ds : List DesiredRes) (k : String) :
    List.lookup k (desired_by_mac (valid_reservations ds)) =
      (valid_reservations ds).reverse.find? (fun d => dKey d == k) :=
  lookup_desired_by_mac _ _

/-- C2 (counterexample). With desired `[]` and one observed entry the run
does not plan or invoke any removal: it aborts with `No valid reservations
found in JSON file` (return `False`) before fetching or diffing, so the
remove operation is invoked zero times, not once. -/
theorem claim2_counterexample :
    (sync_reservations_from_json [obsR1] [] false false "yes" ["112233445566"]
        allTrue allTrue allTrue).trace = [] ∧
      (sync_reservations_from_json [obsR1] [] false false "yes" ["112233445566"]
          allTrue allTrue allTrue).retval = false ∧
      (sync_reservations_from_json [obsR1] [] false false "yes" ["112233445566"]
          allTrue allTrue allTrue).removedTotal = 0 := by
  refine ⟨by decide, by decide, by decide⟩

/-- C8. Dry-run mode never mutates: whatever the desired list, the table,
and the plan contents, the run makes no create/update/remove attempt, never
consults the confirmation gate, and leaves the table unchanged. -/
theorem claim8_dry_run_never_mutates (st : List UserRec) (ds : List DesiredRes)
    (confirm : Bool) (resp : String) (removeOrder : List String) (okR okC okU : Nat → Bool) :
    (sync_reservations_from_json st ds true confirm resp removeOrder okR okC okU).trace = [] ∧
      (sync_reservations_from_json st ds true confirm resp removeOrder okR okC okU).gateConsulted
        = false ∧
      (sync_reservations_from_json st ds true confirm resp removeOrder okR okC okU).state = st := by
  rw [sync_reservations_from_json]
  by_cases h : (valid_reservations ds).isEmpty <;> simp [h]

/-- C4. If the plan contains removals, confirmation is demanded, and the
gate declines, the run returns `False` with no create, update, or remove
attempted and the table untouched. -/
theorem claim4_gate_rejection_all_or_nothing (st : List UserRec) (ds : List DesiredRes)
    (resp : String) (removeOrder : List String) (okR okC okU : Nat → Bool)
    (hrem : reservations_to_remove (exOf st) removeOrder ≠ [])
    (hgate : gateDeclines resp = true) :
    (sync_reservations_from_json st ds false true resp removeOrder okR okC okU).trace = [] ∧
      (sync_reservations_from_json st ds false true resp removeOrder okR okC okU).state = st ∧
      (sync_reservations_from_json st ds false true resp removeOrder okR okC okU).retval
        = false := by
  rw [sync_reservations_from_json]
  by_cases h : (valid_reservations ds).isEmpty
  · simp [h]
  · have hne : (reservations_to_remove
        (existing_by_mac (get_dhcp_reservations st)) removeOrder).isEmpty = false :=
      List.isEmpty_eq_false.mpr hrem
    simp [h, hne, hgate]

/-- C4 (witness). A concrete declined-gate run: one removable observed
entry, answer `no`, nothing is attempted and the table survives. -/
theorem claim4_witness :
    (sync_reservations_from_json [obsR1] [desT] false true "no" ["112233445566"]
        allTrue allTrue allTrue).trace = [] ∧
      (sync_reservations_from_json [obsR1] [desT] false true "no" ["112233445566"]
          allTrue allTrue allTrue).state = [obsR1] ∧
      (sync_reservations_from_json [obsR1] [desT] false true "no" ["112233445566"]
          allTrue allTrue allTrue).retval = false :=
  claim4_gate_rejection_all_or_nothing [obsR1] [desT] "no" ["112233445566"]
    allTrue allTrue allTrue (by decide) (by decide)

/-- C6. Strict-equality churn: a key present in both dicts whose desired
entry omits the display name while the observed record carries one is
classified for update, never as unchanged. -/
theorem claim6_omitted_name_is_update (vs : List DesiredRes) (obs : List UserRec)
    (k s : String) (d : DesiredRes) (r : UserRec)
    (hd : List.lookup k (desired_by_mac vs) = some d)
    (hr : List.lookup k (existing_by_mac obs) = some r)
    (hn : d.name = none) (ho : r.name = some s) :
    d ∈ reservations_to_update (desired_by_mac vs) (existing_by_mac obs) := by
  have hneed : needsUpdate r d = true := by
    simp [needsUpdate, hn, ho]
  refine List.mem_filterMap.mpr ⟨(k, d), lookup_mem hd, ?_⟩
  simp only [hr, hneed, if_pos]

/-- C6 (witness). The concrete pair: desired omits the name, observed has
`x`; the entry lands in the update list. -/
theorem claim6_witness :
    desN ∈ reservations_to_update (desired_by_mac [desN]) (existing_by_mac [obsN1]) :=
  claim6_omitted_name_is_update [desN] [obsN1] "aabbccddeeff" "x" desN obsN1
    (by decide) (by decide) (by decide) (by decide)

/-- C10. The update request always carries the fixed IP and the
use-fixed-IP flag, carries name/hostname exactly when the desired value is
a non-empty string, and therefore a merge-update leaves the record's name
and hostname unchanged whenever the desired entry omits them. -/
theorem claim10_update_frame (u : UserRec) (ip : String) (name hostname : Option String) :
    (update_payload ip name hostname).fixed_ip = some ip ∧
      (update_payload ip name hostname).use_fixedip = some true ∧
      ((update_payload ip name hostname).name = none ↔ (name = none ∨ name = some "")) ∧
      ((update_payload ip name hostname).hostname = none ↔
        (hostname = none ∨ hostname = some "")) ∧
      (∀ s, s ≠ "" → name = some s → (update_payload ip name hostname).name = some s) ∧
      (∀ s, s ≠ "" → hostname = some s → (update_payload ip name hostname).hostname = some s) ∧
      (applyPayload u (update_payload ip name hostname)).fixed_ip = some ip ∧
      (applyPayload u (update_payload ip name hostname)).use_fixedip = true ∧
      (name = none → (applyPayload u (update_payload ip name hostname)).name = u.name) ∧
      (hostname = none →
        (applyPayload u (update_payload ip name hostname)).hostname = u.hostname) := by
  refine ⟨rfl, rfl, ?_, ?_, ?_, ?_, rfl, rfl, ?_, ?_⟩
  · cases name with
    | none => simp [update_payload, truthyOpt]
    | some s =>
      by_cases hs : s = "" <;> simp [update_payload, truthyOpt, hs]
  · cases hostname with
    | none => simp [update_payload, truthyOpt]
    | some s =>
      by_cases hs : s = "" <;> simp [update_payload, truthyOpt, hs]
  · intro s hs he
    simp [update_payload, truthyOpt, he, hs]
  · intro s hs he
    simp [update_payload, truthyOpt, he, hs]
  · intro he
    simp [applyPayload, update_payload, truthyOpt, he]
  · intro he
    simp [applyPayload, update_payload, truthyOpt, he]

/-- C10 (witness). A concrete update that omits both optional fields: the
payload carries only IP and flag and the record keeps its name and
hostname. -/
theorem claim10_witness :
    ((update_payload "10.0.0.9" none none).name = none ↔
        ((none : Option String) = none ∨ (none : Option String) = some "")) ∧
      (applyPayload obsR1 (update_payload "10.0.0.9" none none)).name = obsR1.name := by
  refine ⟨(claim10_update_frame obsR1 "10.0.0.9" none none).2.2.1, ?_⟩
  exact (claim10_update_frame obsR1 "10.0.0.9" none none).2.2.2.2.2.2.2.2.1 rfl

/-- C5. Classification partitions keys by dict membership: a key mapped in
the desired dict but not the observed dict contributes its entry to the
create list; a key mapped only in the observed dict lands in the canonical
removal key set and its record in the removal list; a key mapped in both is
in the update list exactly when a compared field differs (otherwise it is
unchanged), and it is never in the create or removal classes; and for
disjoint key sets the update list is empty. -/
theorem claim5_classification_partition (vs : List DesiredRes) (obs : List UserRec) (k : String) :
    (∀ d, List.lookup k (desired_by_mac vs) = some d →
        List.lookup k (existing_by_mac obs) = none →
        d ∈ reservations_to_create (desired_by_mac vs) (existing_by_mac obs)) ∧
      (∀ r, List.lookup k (existing_by_mac obs) = some r →
        List.lookup k (desired_by_mac vs) = none →
        k ∈ macs_to_remove_canon (existing_by_mac obs) (desired_by_mac vs) ∧
          r ∈ reservations_to_remove (existing_by_mac obs)
            (macs_to_remove_canon (existing_by_mac obs) (desired_by_mac vs))) ∧
      (∀ d r, List.lookup k (desired_by_mac vs) = some d →
        List.lookup k (existing_by_mac obs) = some r →
        (d ∈ reservations_to_update (desired_by_mac vs) (existing_by_mac obs) ↔
            needsUpdate r d = true) ∧
          d ∉ reservations_to_create (desired_by_mac vs) (existing_by_mac obs) ∧
          k ∉ macs_to_remove_canon (existing_by_mac obs) (desired_by_mac vs)) ∧
      ((∀ k', List.lookup k' (desired_by_mac vs) = none ∨
          List.lookup k' (existing_by_mac obs) = none) →
        reservations_to_update (desired_by_mac vs) (existing_by_mac obs) = []) := by
  refine ⟨?_, ?_, ?_, ?_⟩
  · intro d hd hex
    refine List.mem_map.mpr ⟨(k, d), List.mem_filter.mpr ⟨lookup_mem hd, ?_⟩, rfl⟩
    simp [hex]
  · intro r hr hd
    have hkex : k ∈ (existing_by_mac obs).map Prod.fst :=
      List.mem_map.mpr ⟨(k, r), lookup_mem hr, rfl⟩
    have hknd : k ∉ (desired_by_mac vs).map Prod.fst := lookup_eq_none_iff.mp hd
    have hcanon : k ∈ macs_to_remove_canon (existing_by_mac obs) (desired_by_mac vs) := by
      rw [macs_to_remove_canon]
      refine List.mem_filter.mpr ⟨hkex, ?_⟩
      cases hc : ((desired_by_mac vs).map Prod.fst).contains k
      · rfl
      · exact absurd (List.elem_iff.mp hc) hknd
    exact ⟨hcanon, List.mem_filterMap.mpr ⟨k, hcanon, hr⟩⟩
  · intro d r hd hr
    have hk : k = dKey d := (mem_desired_pair (lookup_mem hd)).1
    refine ⟨⟨?_, ?_⟩, ?_, ?_⟩
    · intro hmem
      rcases List.mem_filterMap.mp hmem with ⟨p, hp, he⟩
      rcases update_fn_eq _ p needsUpdate he with ⟨hpd, e, hle, hne⟩
      have hp' : (p.1, p.2) ∈ desired_by_mac vs := by
        simpa using hp
      have hp1 : p.1 = dKey p.2 := (mem_desired_pair hp').1
      rw [hpd] at hp1 hne
      rw [hp1, ← hk, hr] at hle
      cases Option.some.inj hle
      exact hne
    · intro hneed
      refine List.mem_filterMap.mpr ⟨(k, d), lookup_mem hd, ?_⟩
      simp [hr, hneed]
    · intro hmem
      rcases List.mem_map.mp hmem with ⟨p, hp, he⟩
      rcases List.mem_filter.mp hp with ⟨hpde, hpnone⟩
      have hp' : (p.1, p.2) ∈ desired_by_mac vs := by
        simpa using hpde
      have hp1 : p.1 = dKey p.2 := (mem_desired_pair hp').1
      rw [he] at hp1
      rw [hp1, ← hk] at hpnone
      rw [Option.isNone_iff_eq_none.mp hpnone] at hr
      exact Option.noConfusion hr
    · intro hmem
      rw [macs_to_remove_canon] at hmem
      have hc := (List.mem_filter.mp hmem).2
      have hkeys : k ∈ (desired_by_mac vs).map Prod.fst :=
        List.mem_map.mpr ⟨(k, d), lookup_mem hd, rfl⟩
      have hc2 : ((desired_by_mac vs).map Prod.fst).contains k = true := by
        simpa using hkeys
      rw [hc2] at hc
      exact Bool.noConfusion hc
  · intro hdisj
    rw [reservations_to_update]
    refine List.filterMap_eq_nil_iff.mpr ?_
    intro p hp
    have hp' : (p.1, p.2) ∈ desired_by_mac vs := by
      simpa using hp
    have hlp : List.lookup p.1 (desired_by_mac vs) = some p.2 :=
      lookup_of_mem_nodup (nodup_keys_dictOf _) hp'
    rcases hdisj p.1 with h | h
    · rw [hlp] at h
      exact Option.noConfusion h
    · simp [h]

/-- C5 (witness). One desired-only key: the entry is classified for
creation. -/
theorem claim5_witness :
    desT ∈ reservations_to_create (desired_by_mac [desT]) (existing_by_mac []) :=
  (claim5_classification_partition [desT] [] "aabbccddeeff").1 desT (by decide) (by decide)

/-- C7. Partial-failure tolerance of the executor: on an apply-capable run,
the attempt trace lists every removal, create, and update exactly once, in
phase order, independent of which HTTP calls fail; the totals equal the
plan sizes, and each tally counts exactly the successful outcomes of its
phase. -/
theorem claim7_partial_failure_isolation (st : List UserRec) (ds : List DesiredRes)
    (resp : String) (removeOrder : List String) (okR okC okU okR2 okC2 okU2 : Nat → Bool)
    (hvs : valid_reservations ds ≠ []) :
    (sync_reservations_from_json st ds false false resp removeOrder okR okC okU).trace =
        (reservations_to_remove (exOf st) removeOrder).map Action.removeA ++
          (reservations_to_create (deOf ds) (exOf st)).map Action.createA ++
          (reservations_to_update (deOf ds) (exOf st)).map Action.updateA ∧
      (sync_reservations_from_json st ds false false resp removeOrder okR okC okU).removedTotal =
        (reservations_to_remove (exOf st) removeOrder).length ∧
      (sync_reservations_from_json st ds false false resp removeOrder okR okC okU).createdTotal =
        (reservations_to_create (deOf ds) (exOf st)).length ∧
      (sync_reservations_from_json st ds false false resp removeOrder okR okC okU).updatedTotal =
        (reservations_to_update (deOf ds) (exOf st)).length ∧
      (sync_reservations_from_json st ds false false resp removeOrder okR okC okU).removedOk =
        ((List.range (reservations_to_remove (exOf st) removeOrder).length).filter
          (fun j => okR j)).length ∧
      (sync_reservations_from_json st ds false false resp removeOrder okR okC okU).createdOk =
        ((List.range (reservations_to_create (deOf ds) (exOf st)).length).filter
          (fun j => okC j)).length ∧
      (sync_reservations_from_json st ds false false resp removeOrder okR okC okU).updatedOk =
        ((List.range (reservations_to_update (deOf ds) (exOf st)).length).filter
          (fun j => okU j)).length ∧
      (sync_reservations_from_json st ds false false resp removeOrder okR okC okU).trace =
        (sync_reservations_from_json st ds false false resp removeOrder okR2 okC2 okU2).trace := by
  have hvs' : (valid_reservations ds).isEmpty = false := List.isEmpty_eq_false.mpr hvs
  rw [sync_apply st ds resp removeOrder okR okC okU hvs',
    sync_apply st ds resp removeOrder okR2 okC2 okU2 hvs']
  refine ⟨applyPhases_trace _ _ _ _ _ _ _ _, rfl, rfl, rfl,
    applyPhases_removedOk _ _ _ _ _ _ _ _ toRemove_exists,
    applyPhases_createdOk _ _ _ _ _ _ _ _ toCreate_valid,
    applyPhases_updatedOk _ _ _ _ _ _ _ _ toUpdate_valid, ?_⟩
  rw [applyPhases_trace, applyPhases_trace]

/-- C7 (witness). Three creates with the middle one failing: both tallies
of the other phases stay full, the creates report 2 of 3, and the failing
run attempts exactly the same actions as the all-success run. -/
theorem claim7_witness :
    (sync_reservations_from_json [] [desT, desB, desC] false false "" []
          allTrue (fun i => !(i == 1)) allTrue).createdOk = 2 ∧
      (sync_reservations_from_json [] [desT, desB, desC] false false "" []
          allTrue (fun i => !(i == 1)) allTrue).createdTotal = 3 ∧
      (sync_reservations_from_json [] [desT, desB, desC] false false "" []
          allTrue (fun i => !(i == 1)) allTrue).trace =
        (sync_reservations_from_json [] [desT, desB, desC] false false "" []
          allTrue allTrue allTrue).trace := by
  have h := claim7_partial_failure_isolation [] [desT, desB, desC] "" []
    allTrue (fun i => !(i == 1)) allTrue allTrue allTrue allTrue (by decide)
  refine ⟨?_, ?_, h.2.2.2.2.2.2.2⟩
  · rw [h.2.2.2.2.2.1]
    decide
  · rw [h.2.2.1]
    decide

/-- C2 (amended). The run computes a single-entry removal plan only when at
least one valid desired entry exists: for a singleton valid desired list
whose key differs from the single observed entry, the removal list is
exactly that observed entry and an apply-capable run (confirmation waived)
attempts exactly one remove. -/
theorem claim2_singleton_remove (st : List UserRec) (ds : List DesiredRes) (d : DesiredRes)
    (r : UserRec) (resp : String) (removeOrder : List String) (okR okC okU : Nat → Bool)
    (hvs : valid_reservations ds = [d])
    (hobs : get_dhcp_reservations st = [r])
    (hmac : r.mac ≠ "")
    (hk : keyOf r ≠ dKey d)
    (hro : removeOrder.Perm (macs_to_remove_canon (exOf st) (deOf ds))) :
    reservations_to_remove (exOf st) removeOrder = [r] ∧
      (sync_reservations_from_json st ds false false resp removeOrder okR okC okU).trace.countP
          Action.isRemoveA = 1 ∧
      (sync_reservations_from_json st ds false false resp removeOrder okR okC okU).removedTotal
        = 1 := by
  have hex : exOf st = [(keyOf r, r)] := by
    rw [exOf, hobs, existing_by_mac]
    have : (r.mac != "") = true := by
      simpa using hmac
    simp [this, dictOf, dictInsert]
  have hde1 : (deOf ds).map Prod.fst = [dKey d] := by
    rw [deOf, hvs, desired_by_mac]
    simp [dictOf, dictInsert]
  have hcanon : macs_to_remove_canon (exOf st) (deOf ds) = [keyOf r] := by
    rw [macs_to_remove_canon, hex, hde1]
    simp [hk, Ne.symm hk]
  have hro1 : removeOrder = [keyOf r] := by
    rw [hcanon] at hro
    exact List.perm_singleton.mp hro
  have htoR : reservations_to_remove (exOf st) removeOrder = [r] := by
    rw [hro1, hex, reservations_to_remove]
    simp [lookup_cons]
  have hvs' : (valid_reservations ds).isEmpty = false := by
    rw [hvs]
    rfl
  refine ⟨htoR, ?_, ?_⟩
  · rw [sync_apply st ds resp removeOrder okR okC okU hvs', applyPhases_trace, htoR]
    rw [List.countP_append, List.countP_append, List.countP_map, List.countP_map,
      List.countP_map]
    rw [show (Action.isRemoveA ∘ Action.removeA) = (fun _ => true) from rfl,
      show (Action.isRemoveA ∘ Action.createA) = (fun _ => false) from rfl,
      show (Action.isRemoveA ∘ Action.updateA) = (fun _ => false) from rfl]
    simp
  · rw [sync_apply st ds resp removeOrder okR okC okU hvs', htoR]
    rfl

/-- C2 (amended, witness). One valid desired entry against one different
observed entry: one planned removal and exactly one remove attempt. -/
theorem claim2_witness :
    reservations_to_remove (exOf [obsR1]) ["112233445566"] = [obsR1] ∧
      (sync_reservations_from_json [obsR1] [desT] false false "" ["112233445566"]
          allTrue allTrue allTrue).trace.countP Action.isRemoveA = 1 ∧
      (sync_reservations_from_json [obsR1] [desT] false false "" ["112233445566"]
          allTrue allTrue allTrue).removedTotal = 1 :=
  claim2_singleton_remove [obsR1] [desT] desT obsR1 "" ["112233445566"]
    allTrue allTrue allTrue (by decide) (by decide) (by decide) (by decide) (by decide)

/-- C9 (counterexample). The removal sequence follows the Python set's
iteration order, not the observed collection's order: the reversed key
order is an admissible iteration order of `macs_to_remove` (a permutation
of the key difference), and under it the planned and executed removals come
out reversed with respect to the observed collection. -/
theorem claim9_counterexample :
    (["223344556677", "112233445566"] : List String).Perm
        (macs_to_remove_canon (exOf [obsR1, obsR2]) (deOf [desT])) ∧
      get_dhcp_reservations [obsR1, obsR2] = [obsR1, obsR2] ∧
      reservations_to_remove (exOf [obsR1, obsR2]) ["223344556677", "112233445566"] =
        [obsR2, obsR1] ∧
      [obsR2, obsR1] ≠ [obsR1, obsR2] ∧
      (sync_reservations_from_json [obsR1, obsR2] [desT] false false ""
          ["223344556677", "112233445566"] allTrue allTrue allTrue).trace =
        [Action.removeA obsR2, Action.removeA obsR1, Action.createA desT] := by
  refine ⟨by decide, by decide, by decide, by decide, by decide⟩

/-- C9 (amended). Creates and updates preserve the desired dict's insertion
order (each phase list is a sublist of the dict's value sequence); the
removal list is a permutation of the canonically ordered observed-minus-
desired records, its order given by set iteration; and the executor
attempts each phase in the plan's given order. -/
theorem claim9_plan_order (st : List UserRec) (ds : List DesiredRes) (resp : String)
    (removeOrder : List String) (okR okC okU : Nat → Bool)
    (hvs : valid_reservations ds ≠ [])
    (hro : removeOrder.Perm (macs_to_remove_canon (exOf st) (deOf ds))) :
    (reservations_to_create (deOf ds) (exOf st)).Sublist ((deOf ds).map Prod.snd) ∧
      (reservations_to_update (deOf ds) (exOf st)).Sublist ((deOf ds).map Prod.snd) ∧
      (reservations_to_remove (exOf st) removeOrder).Perm
        (reservations_to_remove (exOf st) (macs_to_remove_canon (exOf st) (deOf ds))) ∧
      (sync_reservations_from_json st ds false false resp removeOrder okR okC okU).trace =
        (reservations_to_remove (exOf st) removeOrder).map Action.removeA ++
          (reservations_to_create (deOf ds) (exOf st)).map Action.createA ++
          (reservations_to_update (deOf ds) (exOf st)).map Action.updateA := by
  refine ⟨?_, ?_, ?_, ?_⟩
  · rw [reservations_to_create]
    exact (List.filter_sublist _).map _
  · rw [reservations_to_update]
    refine filterMap_sublist_map _ _ _ ?_
    intro p
    rcases h2 : List.lookup p.1 (exOf st) with _ | e
    · left
      rfl
    · by_cases hn : needsUpdate e p.2 = true
      · right
        simp [h2, hn]
      · left
        simp [h2, hn]
  · exact List.Perm.filterMap _ hro
  · rw [sync_apply st ds resp removeOrder okR okC okU (List.isEmpty_eq_false.mpr hvs)]
    exact applyPhases_trace _ _ _ _ _ _ _ _

/-- C9 (amended, witness). A two-removal run under a reversed iteration
order: the phase lists are order-consistent as stated. -/
theorem claim9_witness :
    (reservations_to_remove (exOf [obsR1, obsR2]) ["223344556677", "112233445566"]).Perm
        (reservations_to_remove (exOf [obsR1, obsR2])
          (macs_to_remove_canon (exOf [obsR1, obsR2]) (deOf [desT]))) ∧
      (sync_reservations_from_json [obsR1, obsR2] [desT] false false ""
          ["223344556677", "112233445566"] allTrue allTrue allTrue).trace =
        (reservations_to_remove (exOf [obsR1, obsR2]) ["223344556677", "112233445566"]).map
            Action.removeA ++
          (reservations_to_create (deOf [desT]) (exOf [obsR1, obsR2])).map Action.createA ++
          (reservations_to_update (deOf [desT]) (exOf [obsR1, obsR2])).map Action.updateA := by
  have h := claim9_plan_order [obsR1, obsR2] [desT] "" ["223344556677", "112233445566"]
    allTrue allTrue allTrue (by decide) (by decide)
  exact ⟨h.2.2.1, h.2.2.2⟩

/-- C3 (counterexample). A fully successful run is not idempotent for a
desired entry that omits the optional name: the create call fills the name
with a `Device-` default, and the strict-equality classification of an
immediately following run flags the same entry for update instead of
leaving it unchanged. -/
theorem claim3_counterexample :
    (sync_reservations_from_json [] [desN] false false "" [] allTrue allTrue allTrue).retval
        = true ∧
      reservations_to_update (deOf [desN])
        (exOf (sync_reservations_from_json [] [desN] false false "" []
          allTrue allTrue allTrue).state) = [desN] ∧
      ([desN] : List DesiredRes) ≠ [] := by
  refine ⟨by decide, by decide, by decide⟩

/-- C3 (amended). Convergence holds under the conditions the defaults do
not disturb: if the table's records carry pairwise distinct identifiers and
normalized MACs, the desired file yields at least one valid entry, and
every valid entry supplies a non-empty name and hostname, then after an
apply-capable run in which every action succeeds, reclassifying the same
desired list against the resulting table produces empty create, update,
and removal classes. -/
theorem claim3_idempotent_amended (st : List UserRec) (ds : List DesiredRes)
    (resp : String) (removeOrder : List String)
    (hkeys : (st.map keyOf).Nodup) (hids : (st.map (fun u => u.id)).Nodup)
    (hvs : valid_reservations ds ≠ [])
    (hname : ∀ d ∈ valid_reservations ds,
      truthyOpt d.name ≠ none ∧ truthyOpt d.hostname ≠ none)
    (hro : removeOrder.Perm (macs_to_remove_canon (exOf st) (deOf ds))) :
    reservations_to_create (deOf ds)
        (exOf (sync_reservations_from_json st ds false false resp removeOrder
          allTrue allTrue allTrue).state) = [] ∧
      reservations_to_update (deOf ds)
        (exOf (sync_reservations_from_json st ds false false resp removeOrder
          allTrue allTrue allTrue).state) = [] ∧
      macs_to_remove_canon
        (exOf (sync_reservations_from_json st ds false false resp removeOrder
          allTrue allTrue allTrue).state) (deOf ds) = [] := by
  have hvs2 : (valid_reservations ds).isEmpty = false := List.isEmpty_eq_false.mpr hvs
  have hsf : (sync_reservations_from_json st ds false false resp removeOrder
      allTrue allTrue allTrue).state = finalState st ds removeOrder := by
    rw [sync_apply st ds resp removeOrder allTrue allTrue allTrue hvs2]
    rfl
  rw [hsf]
  obtain ⟨hrec, hfor⟩ := finalState_filters st ds removeOrder hkeys hids hname hro
  refine ⟨?_, ?_, ?_⟩
  · rw [reservations_to_create]
    refine List.map_eq_nil_iff.mpr (List.filter_eq_nil_iff.mpr ?_)
    intro p hp
    rcases hrec p hp with ⟨u2, hfil, hmat, hmac⟩
    have hlook := lookup_exOf_of_filter hfil hmat.2.1 hmac
    simp [hlook]
  · rw [reservations_to_update]
    refine List.filterMap_eq_nil_iff.mpr ?_
    intro p hp
    rcases hrec p hp with ⟨u2, hfil, hmat, hmac⟩
    have hlook := lookup_exOf_of_filter hfil hmat.2.1 hmac
    have hnu := needsUpdate_false_of_matches hmat
    simp [hlook, hnu]
  · rw [macs_to_remove_canon]
    refine List.filter_eq_nil_iff.mpr ?_
    intro k hk
    by_cases hkde : k ∈ (deOf ds).map Prod.fst
    · rw [show ((deOf ds).map Prod.fst).contains k = true from by simpa using hkde]
      simp
    · exfalso
      rcases ho : List.lookup k (exOf (finalState st ds removeOrder)) with _ | r
      · exact (lookup_eq_none_iff.mp ho) hk
      · rcases lookup_exOf_some_mem ho with ⟨hrmem, hrk, hruse, hrmac⟩
        have hrfil : r ∈ (finalState st ds removeOrder).filter (fun w => keyOf w == k) :=
          List.mem_filter.mpr ⟨hrmem, by simp [hrk]⟩
        rw [hfor k hkde] at hrfil
        by_cases hkRO : k ∈ (reservations_to_remove (exOf st) removeOrder).map keyOf
        · rw [if_pos hkRO] at hrfil
          rcases List.mem_map.mp hrfil with ⟨w, _, hwe⟩
          rw [← hwe] at hruse
          simp [flipOff] at hruse
        · rw [if_neg hkRO] at hrfil
          rcases List.mem_filter.mp hrfil with ⟨hrst, _⟩
          have hkex : k ∈ (exOf st).map Prod.fst := by
            refine mem_keys_existing.mpr ?_
            refine List.mem_map.mpr ⟨r, ?_, hrk⟩
            refine List.mem_filter.mpr ⟨?_, by simp [hrmac]⟩
            exact List.mem_filter.mpr ⟨hrst, by simp [hruse]⟩
          have hkcanon : k ∈ macs_to_remove_canon (exOf st) (deOf ds) :=
            mem_canon_iff.mpr ⟨hkex, hkde⟩
          have hmem2 : k ∈ (reservations_to_remove (exOf st) removeOrder).map keyOf := by
            rw [toRemove_keys_of_perm st ds removeOrder hro]
            exact hro.mem_iff.mpr hkcanon
          exact hkRO hmem2

/-- C3 (amended, witness). One removal plus one create, all fields
supplied: the second-run classification of the concrete run is entirely
unchanged. -/
theorem claim3_witness :
    reservations_to_create (deOf [desT])
        (exOf (sync_reservations_from_json [obsR1] [desT] false false "" ["112233445566"]
          allTrue allTrue allTrue).state) = [] ∧
      reservations_to_update (deOf [desT])
        (exOf (sync_reservations_from_json [obsR1] [desT] false false "" ["112233445566"]
          allTrue allTrue allTrue).state) = [] ∧
      macs_to_remove_canon
        (exOf (sync_reservations_from_json [obsR1] [desT] false false "" ["112233445566"]
          allTrue allTrue allTrue).state) (deOf [desT]) = [] :=
  claim3_idempotent_amended [obsR1] [desT] "" ["112233445566"]
    (by decide) (by decide) (by decide) (by decide) (by decide)

end UnifiSync
